import Mathlib

/-!
Formal model of the rusty-archive content-addressed reconciliation engine.

The definitions shallowly embed the Rust sources:
* `src/file_info.rs` — the snapshot line codec (`FileInfo::parse`,
  `FileInfo::write`) and the metadata comparison `FileInfo::needs_reading`;
* `src/file_check.rs` — per-file checking (`FileToCheck::check`, `hash_file`);
* `src/main.rs` — the walk/classification loop, the duplicate reconciliation
  pass of update mode, and the four verify policies;
* `src/state.rs` — snapshot selection and loading (`read_state`).

Machine integers are modelled as `Nat`; where the Rust code performs `u64` or
`u32` arithmetic that can wrap (release-profile wrapping semantics), the
reduction modulo `2 ^ 64` or `2 ^ 32` is written explicitly.  Time stamps
(`SystemTime`) are modelled as nanoseconds since the Unix epoch.  Paths
(`PathBuf`) are modelled as the `List Char` of their UTF-8 text, digests
(`[u8; 32]`) as a `List Nat` of byte values.
-/

deriving instance DecidableEq for Except

/-- One tracked file record (struct `FileInfo` in `src/file_info.rs`). -/
structure FileInfo where
  rel_path : List Char
  sha256_digest : List Nat
  mtime : Nat
  len : Nat
  last_seen : Nat
  fully_read : Nat
deriving DecidableEq

/-- Previous and current state of a modified file
(`FileCheckResultModified` in `src/file_check.rs`). -/
structure FileCheckResultModified where
  previous : FileInfo
  current : FileInfo
deriving DecidableEq

/-- Outcome of checking one path (`FileCheckResult` in `src/file_check.rs`).
`Unmodifed` keeps the source's spelling. -/
inductive FileCheckResult where
  | New (fi : FileInfo)
  | Unmodifed (fi : FileInfo)
  | Modified (m : FileCheckResultModified)
  | Missing (fi : FileInfo)
deriving DecidableEq

/-- Current metadata and content digest of a path as the filesystem reports
them.  The claims under consideration assume stat/read never fail, so the
filesystem is modelled as a total function from paths to this record. -/
structure FsFile where
  len : Nat
  mtime : Nat
  sha256_digest : List Nat
deriving DecidableEq

/-- Model of `hash_file` in `src/file_check.rs`: read a file completely,
producing a fresh record whose `fully_read`/`last_seen` are the current time
(`now` is threaded explicitly in place of `SystemTime::now()`). -/
def hash_file (fs : List Char → FsFile) (now : Nat) (path : List Char) : FileInfo :=
  { rel_path := path
    sha256_digest := (fs path).sha256_digest
    mtime := (fs path).mtime
    len := (fs path).len
    fully_read := now
    last_seen := now }

/-- `FileInfo::needs_reading` (src/file_info.rs line 122): the stored record
differs from the fresh stat in modification time or length. -/
def needs_reading (fi : FileInfo) (m : FsFile) : Bool :=
  (fi.mtime != m.mtime) || (fi.len != m.len)

/-- A scheduled hashing task (`FileToCheck` in `src/file_check.rs`). -/
inductive FileToCheck where
  | New (path : List Char)
  | NeedsChecking (fi : FileInfo)
deriving DecidableEq

/-- `FileToCheck::check`: hash the file; for `NeedsChecking`, compare the new
digest with the stored one (src/file_check.rs lines 48-69). -/
def FileToCheck.check (fs : List Char → FsFile) (now : Nat) : FileToCheck → FileCheckResult
  | .New path => .New (hash_file fs now path)
  | .NeedsChecking fi =>
    let file_info := hash_file fs now fi.rel_path
    if file_info.sha256_digest = fi.sha256_digest then .Unmodifed file_info
    else .Modified { previous := fi, current := file_info }

/-- The path a task reads. -/
def FileToCheck.path : FileToCheck → List Char
  | .New path => path
  | .NeedsChecking fi => fi.rel_path

/-- Model of `HashMap::remove` on the loaded snapshot map (an association
list): take out the first binding of `path`, if any. -/
def remove_path (path : List Char) : List (List Char × FileInfo) →
    Option FileInfo × List (List Char × FileInfo)
  | [] => (none, [])
  | e :: rest =>
    if e.1 = path then (some e.2, rest)
    else
      let r := remove_path path rest
      (r.1, e :: r.2)

/-- The walk/classification loop of `main` (src/main.rs lines 81-138).  For
each candidate path in walk order: not in the snapshot map → schedule a `New`
task; in the map and (`needs_reading` or the read-all flag) → schedule a
`NeedsChecking` task; otherwise classify `Unmodifed` in place, bumping only
`last_seen`.  Returns (remaining snapshot entries, in-place unmodified
results in walk order, scheduled tasks in FIFO order). -/
def walk (fs : List Char → FsFile) (read_all_files : Bool) (now : Nat) :
    List (List Char) → List (List Char × FileInfo) →
      List (List Char × FileInfo) × List FileCheckResult × List FileToCheck
  | [], old_states => (old_states, [], [])
  | path :: files, old_states =>
    match remove_path path old_states with
    | (none, old_states') =>
      let r := walk fs read_all_files now files old_states'
      (r.1, r.2.1, .New path :: r.2.2)
    | (some fi, old_states') =>
      if needs_reading fi (fs path) || read_all_files then
        let r := walk fs read_all_files now files old_states'
        (r.1, r.2.1, .NeedsChecking fi :: r.2.2)
      else
        let r := walk fs read_all_files now files old_states'
        (r.1, .Unmodifed { fi with last_seen := now } :: r.2.1, r.2.2)

/-- Result of one run of the check engine: the collected outcome list, the
list of paths whose content was read (one entry per executed hash task), and
the value accumulated into the `files_checked` counter. -/
structure RunResult where
  outcomes : List FileCheckResult
  reads : List (List Char)
  files_checked : Nat
deriving DecidableEq

/-- The check engine of `main` (src/main.rs lines 62-155): walk all candidate
paths, then extend the collected outcomes with a `Missing` outcome for every
snapshot entry never matched, then with the task results.  Task results are
delivered through a channel in completion order; the model lists them in
scheduling order (the final list is sorted by path afterwards, and the claims
below are order-insensitive).  `files_checked` is the walked-file count plus
the number of remaining (missing) snapshot entries, as in
`stats.files_checked(files_checked + old_states_by_filename.len())`. -/
def run_check (fs : List Char → FsFile) (read_all_files : Bool) (now : Nat)
    (old_states : List (List Char × FileInfo)) (files : List (List Char)) : RunResult :=
  let w := walk fs read_all_files now files old_states
  { outcomes := w.2.1 ++ w.1.map (fun e => .Missing e.2)
      ++ w.2.2.map (FileToCheck.check fs now)
    reads := w.2.2.map FileToCheck.path
    files_checked := files.length + w.1.length }

/-- Outcome kind discriminators. -/
def isNew : FileCheckResult → Bool
  | .New _ => true
  | _ => false

def isUnmodifed : FileCheckResult → Bool
  | .Unmodifed _ => true
  | _ => false

def isModified : FileCheckResult → Bool
  | .Modified _ => true
  | _ => false

def isMissing : FileCheckResult → Bool
  | .Missing _ => true
  | _ => false

def isNewTask : FileToCheck → Bool
  | .New _ => true
  | _ => false

def isNeedsChecking : FileToCheck → Bool
  | .NeedsChecking _ => true
  | _ => false

/-- Digests of every file confirmed present on disk in this run:
`present_sha256_digests` in src/main.rs lines 170-179 (digest of every `New`,
`Unmodifed`, and `Modified`-current record).  The source collects them into a
`HashSet`; only membership is consumed, so a plain list suffices. -/
def present_digest : FileCheckResult → Option (List Nat)
  | .New fi => some fi.sha256_digest
  | .Unmodifed fi => some fi.sha256_digest
  | .Modified m => some m.current.sha256_digest
  | .Missing _ => none

def present_sha256_digests (l : List FileCheckResult) : List (List Nat) :=
  l.filterMap present_digest

/-- One step of the dedup filter of update mode (src/main.rs lines 182-204):
drop a `Missing` record whose digest is still present, reclassify a
`Modified` record whose previous digest is still present as `New`. -/
def dedup_step (present : List (List Nat)) : FileCheckResult → Option FileCheckResult
  | .Missing fi =>
    if fi.sha256_digest ∈ present then none else some (.Missing fi)
  | .Modified m =>
    if m.previous.sha256_digest ∈ present then some (.New m.current)
    else some (.Modified m)
  | f => some f

/-- The dedup pass of update mode: build the present-set from the full
outcome list, then filter every outcome through `dedup_step`. -/
def dedup_pass (l : List FileCheckResult) : List FileCheckResult :=
  l.filterMap (dedup_step (present_sha256_digests l))

/-- The `duplicates_removed` counter of the dedup pass: incremented once for
every dropped `Missing` outcome and once for every `Modified` outcome
reclassified as `New`. -/
def duplicates_removed (l : List FileCheckResult) : Nat :=
  l.countP fun f =>
    match f with
    | .Missing fi => decide (fi.sha256_digest ∈ present_sha256_digests l)
    | .Modified m => decide (m.previous.sha256_digest ∈ present_sha256_digests l)
    | _ => false

/-- Spec-side wording of the present-set (§4.4 step 2 of the spec): a digest
is present on disk when some `New`, `Unchanged`, or `Modified`-current record
carries it. -/
def present_on_disk (l : List FileCheckResult) (d : List Nat) : Bool :=
  l.any fun f =>
    match f with
    | .New fi => fi.sha256_digest == d
    | .Unmodifed fi => fi.sha256_digest == d
    | .Modified m => m.current.sha256_digest == d
    | .Missing _ => false

/-- Spec-side wording of the dedup pass, built directly from the sentences of
the claim: each `Missing` outcome whose digest is present is dropped, each
`Modified` outcome whose previous digest is present becomes `New` with the
current record, everything else is kept unchanged. -/
def dedup_spec (l : List FileCheckResult) : List FileCheckResult :=
  l.filterMap fun f =>
    match f with
    | .Missing fi =>
      if present_on_disk l fi.sha256_digest then none else some (.Missing fi)
    | .Modified m =>
      if present_on_disk l m.previous.sha256_digest then some (.New m.current)
      else some (.Modified m)
    | f => some f

/-- Error values of the verify policies, carrying the counts reported in the
corresponding error messages of src/main.rs lines 240-339. -/
inductive VerifyError where
  | not_found_in_archive (not_present : Nat)
  | changed (missing_or_modified new : Nat)
  | presence (not_present archive_not_found : Nat)
  | missing_or_changed (missing_or_modified new : Nat)
deriving DecidableEq

/-- `archive_sha256_digests` (src/main.rs lines 229-238): digests recorded in
the archive — every `Unmodifed`, `Missing`, and `Modified`-previous digest,
collected as a set (`List.dedup` models the `HashSet`). -/
def archived_digest : FileCheckResult → Option (List Nat)
  | .Unmodifed fi => some fi.sha256_digest
  | .Missing fi => some fi.sha256_digest
  | .Modified m => some m.previous.sha256_digest
  | .New _ => none

def archive_sha256_digests (l : List FileCheckResult) : List (List Nat) :=
  (l.filterMap archived_digest).dedup

/-- The `not_present` count shared by the two presence-style verify rules:
found files (`New`, or `Modified` taken at the current record) whose digest
is not in the archived digest set. -/
def found_not_archived (l : List FileCheckResult) : FileCheckResult → Bool
  | .New fi => decide (fi.sha256_digest ∉ archive_sha256_digests l)
  | .Modified m => decide (m.current.sha256_digest ∉ archive_sha256_digests l)
  | _ => false

def count_not_present (l : List FileCheckResult) : Nat :=
  l.countP (found_not_archived l)

/-- The verify policy evaluator (src/main.rs lines 240-339), one branch per
(ignore_missing, only_presence) flag pair. -/
def verify (ignore_missing only_presence : Bool) (checked_files : List FileCheckResult) :
    Except VerifyError Unit :=
  match ignore_missing, only_presence with
  | true, true =>
    let not_present := count_not_present checked_files
    if not_present > 0 then .error (.not_found_in_archive not_present) else .ok ()
  | true, false =>
    let missing_or_modified := checked_files.countP isModified
    let new := checked_files.countP isNew
    if missing_or_modified > 0 then .error (.changed missing_or_modified new)
    else .ok ()
  | false, true =>
    let not_present := count_not_present checked_files
    let missing_sha256 := (archive_sha256_digests checked_files).filter
      (fun d => !(present_sha256_digests checked_files).contains d)
    if not_present > 0 ∨ missing_sha256.length > 0 then
      .error (.presence not_present missing_sha256.length)
    else .ok ()
  | false, false =>
    let missing_or_modified := checked_files.countP
      (fun f => isMissing f || isModified f)
    let new := checked_files.countP isNew
    if missing_or_modified > 0 ∨ new > 0 then
      .error (.missing_or_changed missing_or_modified new)
    else .ok ()

/-- ASCII decimal digit.  The source regex's `\d` is Unicode-aware
(`\p{Nd}`); this model restricts it to ASCII.  The two digit classes agree
on every character of an all-ASCII line, so the model coincides with the
source on lines made of ASCII characters only; they also coincide on every
line of the §6 grammar and on every encoded record, because there all digit
fields are ASCII and no `#` occurs after the true ` # mtime ` marker, so
the greedy rightmost tail is the true tail under either digit class.  On
lines containing non-ASCII decimal digits the match boundary can differ,
and theorems about acceptance are scoped accordingly. -/
def isAsciiDigit (c : Char) : Bool :=
  decide ('0' ≤ c) && decide (c ≤ '9')

/-- The character class `[a-f0-9]` of the digest capture. -/
def isHexLowerChar (c : Char) : Bool :=
  isAsciiDigit c || (decide ('a' ≤ c) && decide (c ≤ 'f'))

def digitVal (c : Char) : Nat := c.toNat - '0'.toNat

def hexVal (c : Char) : Nat :=
  if isAsciiDigit c then digitVal c else c.toNat - 'a'.toNat + 10

def nat_from_digits (ds : List Char) : Nat :=
  ds.foldl (fun a c => a * 10 + digitVal c) 0

/-- Model of `str::parse::<u64>` on a nonempty ASCII digit string: succeeds
exactly when the value fits in a `u64` (leading zeros are accepted). -/
def parse_u64 (ds : List Char) : Option Nat :=
  if nat_from_digits ds < 2 ^ 64 then some (nat_from_digits ds) else none

/-- The literal fragments of the line pattern and of the emitted line. -/
def mtime_lit : List Char := " # mtime ".data

def dot_lit : List Char := ".".data

def size_lit : List Char := " size ".data

def fully_read_lit : List Char := " fully_read ".data

def last_seen_lit : List Char := " last_seen ".data

/-- Maximal run of digits (`(\d+)` is greedy; every continuation following a
digit group in the pattern starts with a non-digit character, so no shorter
run can ever extend to a match and the maximal run is exact). -/
def takeDigits : List Char → List Char × List Char
  | [] => ([], [])
  | c :: rest =>
    if isAsciiDigit c then
      let r := takeDigits rest
      (c :: r.1, r.2)
    else ([], c :: rest)

/-- Match a literal fragment of the pattern, returning the rest of the
input. -/
def dropLit : List Char → List Char → Option (List Char)
  | [], s => some s
  | _ :: _, [] => none
  | c :: lit, d :: s => if c = d then dropLit lit s else none

/-- The numeric capture groups of the pattern. -/
structure TailCaps where
  mtime_s : List Char
  mtime_ns : List Char
  size : List Char
  fully_read : List Char
  last_seen : List Char
deriving DecidableEq

/-- The optional fraction `(?:\.\d+)?`.  Greedy: if a '.' followed by at
least one digit is next, it is consumed (digits maximally); otherwise the
group matches empty.  When consuming it makes the following literal fail,
skipping it cannot succeed either (the literal starts with ' ', the input
with '.'), so this is deterministic. -/
def optFrac (s : List Char) : List Char :=
  match s with
  | '.' :: rest =>
    let r := takeDigits rest
    if r.1 = [] then s else r.2
  | _ => s

/-- The part of the pattern after the path capture:
` # mtime (\d+)\.(\d+) size (\d+) fully_read (\d+)(?:\.\d+)? last_seen (\d+)(?:\.\d+)?`,
matched against a prefix of the input (the overall match is unanchored, so
input remaining after the last group is simply ignored). -/
def tailAfterPath (s : List Char) : Option TailCaps :=
  match dropLit mtime_lit s with
  | none => none
  | some s1 =>
    let m := takeDigits s1
    if m.1 = [] then none else
    match dropLit dot_lit m.2 with
    | none => none
    | some s2 =>
      let n := takeDigits s2
      if n.1 = [] then none else
      match dropLit size_lit n.2 with
      | none => none
      | some s3 =>
        let z := takeDigits s3
        if z.1 = [] then none else
        match dropLit fully_read_lit z.2 with
        | none => none
        | some s4 =>
          let fr := takeDigits s4
          if fr.1 = [] then none else
          match dropLit last_seen_lit (optFrac fr.2) with
          | none => none
          | some s5 =>
            let ls := takeDigits s5
            if ls.1 = [] then none else
            some { mtime_s := m.1, mtime_ns := n.1, size := z.1,
                   fully_read := fr.1, last_seen := ls.1 }

/-- Greedy `.*` of the path capture (`.` matches any character except a
newline), with backtracking: the longest consumable prefix is tried first,
so the continuation `tm` is attempted at the latest position first, walking
back toward the current one.  `acc` holds the consumed characters in
reverse; on success the capture is `acc.reverse`. -/
def dotStar (tm : List Char → Option TailCaps) :
    List Char → List Char → Option (List Char × TailCaps)
  | acc, [] => (tm []).map fun tc => (acc.reverse, tc)
  | acc, c :: rest =>
    if c = '\n' then (tm (c :: rest)).map fun tc => (acc.reverse, tc)
    else
      match dotStar tm (c :: acc) rest with
      | some r => some r
      | none => (tm (c :: rest)).map fun tc => (acc.reverse, tc)

/-- All capture groups of the line pattern. -/
structure LineCaps where
  digest_hex : List Char
  path : List Char
  tail : TailCaps
deriving DecidableEq

/-- Take exactly `n` characters, all in `[a-f0-9]` (the `([a-f0-9]{64})`
digest capture). -/
def takeCountHex : Nat → List Char → Option (List Char × List Char)
  | 0, s => some ([], s)
  | _ + 1, [] => none
  | n + 1, c :: s =>
    if isHexLowerChar c then (takeCountHex n s).map fun r => (c :: r.1, r.2)
    else none

/-- Attempt the pattern
`([a-f0-9]{64}) /?([^/].*) # mtime ...` at the current position. -/
def matchAt (s : List Char) : Option LineCaps :=
  match takeCountHex 64 s with
  | none => none
  | some (hex, s1) =>
    match s1 with
    | ' ' :: s2 =>
      -- `/?` is greedy; since `[^/]` follows, a '/' here must be consumed,
      -- and two leading slashes make this position fail.
      let s3 := if s2.head? = some '/' then s2.tail else s2
      match s3 with
      | [] => none
      | c :: s4 =>
        if c = '/' then none
        else (dotStar tailAfterPath [c] s4).map fun r =>
          { digest_hex := hex, path := r.1, tail := r.2 }
    | _ => none

/-- `Regex::captures` is unanchored with leftmost-first semantics: the match
is attempted at every position from the left, and the first position that
matches wins. -/
def findMatch : List Char → Option LineCaps
  | [] => none
  | c :: rest =>
    match matchAt (c :: rest) with
    | some caps => some caps
    | none => findMatch rest

/-- Model of `hex::decode_to_slice` on the captured digest: pairs of hex
characters to bytes (the capture is always 64 chars of `[a-f0-9]`, so this
never fails on a capture, but the source keeps the error branch and so does
the model). -/
def hexPairs : List Char → Option (List Nat)
  | [] => some []
  | [_] => none
  | a :: b :: rest =>
    if isHexLowerChar a && isHexLowerChar b then
      (hexPairs rest).map fun t => (hexVal a * 16 + hexVal b) :: t
    else none

/-- The nanosecond scale factor `10_u64.pow(9 - len as u32)` of
`FileInfo::parse` (src/file_info.rs line 46), with release-profile wrapping
semantics: for a field longer than 9 digits the `u32` subtraction wraps to
an exponent of at least 64 and the wrapped `u64` power `10 ^ e % 2 ^ 64` is
then 0 (justified by `pow_ten_mod_two_pow_64` below); a debug build would
panic on the underflow instead. -/
def ns_scale (l : Nat) : Nat :=
  let e := (9 + 2 ^ 32 - l % 2 ^ 32) % 2 ^ 32
  if e < 64 then 10 ^ e % 2 ^ 64 else 0

inductive ParseErrorKind where
  | invalid_line
  | bad_digest
  | bad_mtime_s
  | bad_mtime_ns
  | bad_size
  | bad_fully_read
  | bad_last_seen
deriving DecidableEq

/-- A decode failure; `line` is the offending line text attached by every
`context(format!(... '{}' ...))` call in `FileInfo::parse`. -/
structure ParseError where
  kind : ParseErrorKind
  line : List Char
deriving DecidableEq

/-- `FileInfo::parse` (src/file_info.rs lines 19-84): find the leftmost
match of the unanchored pattern, then convert the captures, failing on an
unparsable integer field.  The `u64` products and sums wrap modulo
`2 ^ 64` (release profile).  The digit class `\d` is modelled as ASCII
(see `isAsciiDigit`): this parse agrees with the source on all-ASCII
lines, on grammar lines and on encoded records, and theorems about its
accept/reject boundary are restricted to those families. -/
def FileInfo.parse (line : List Char) : Except ParseError FileInfo :=
  match findMatch line with
  | none => .error ⟨.invalid_line, line⟩
  | some caps =>
    match hexPairs caps.digest_hex with
    | none => .error ⟨.bad_digest, line⟩
    | some sha256_digest =>
      match parse_u64 caps.tail.mtime_s with
      | none => .error ⟨.bad_mtime_s, line⟩
      | some mtime_s =>
        match parse_u64 caps.tail.mtime_ns with
        | none => .error ⟨.bad_mtime_ns, line⟩
        | some v =>
          let mtime_ns := v * ns_scale caps.tail.mtime_ns.length % 2 ^ 64
          match parse_u64 caps.tail.size with
          | none => .error ⟨.bad_size, line⟩
          | some size =>
            match parse_u64 caps.tail.fully_read with
            | none => .error ⟨.bad_fully_read, line⟩
            | some fully_read =>
              match parse_u64 caps.tail.last_seen with
              | none => .error ⟨.bad_last_seen, line⟩
              | some last_seen =>
                .ok { rel_path := caps.path
                      sha256_digest := sha256_digest
                      mtime := (mtime_s * 1000000000 % 2 ^ 64 + mtime_ns) % 2 ^ 64
                      len := size
                      fully_read := fully_read * 1000000000
                      last_seen := last_seen * 1000000000 }

def decDigitChars : List Char := "0123456789".data

def hexDigitChars : List Char := "0123456789abcdef".data

/-- Decimal printing, fuelled to stay structurally recursive (`fuel > n`
always suffices, see `nat_to_dec`). -/
def nat_to_dec_aux : Nat → Nat → List Char
  | 0, _ => []
  | fuel + 1, n =>
    if n < 10 then [decDigitChars.getD n '0']
    else nat_to_dec_aux fuel (n / 10) ++ [decDigitChars.getD (n % 10) '0']

/-- Decimal rendering of a natural number, as `{}` formats an integer. -/
def nat_to_dec (n : Nat) : List Char := nat_to_dec_aux (n + 1) n

def byteToHex (b : Nat) : List Char :=
  [hexDigitChars.getD (b / 16) '0', hexDigitChars.getD (b % 16) '0']

/-- Model of `hex::encode_to_slice`: lowercase hex of each byte. -/
def hexEncode (bytes : List Nat) : List Char := bytes.flatMap byteToHex

/-- The `{:>09}` format: right-align in width 9, filling with '0'. -/
def pad9 (ds : List Char) : List Char := List.replicate (9 - ds.length) '0' ++ ds

/-- The numeric tail of an emitted line, shared below.  `FileInfo::write`
(src/file_info.rs lines 86-104) writes `fully_read`/`last_seen` truncated to
whole seconds (`as_secs`); the mtime fraction is the nanosecond remainder,
zero-padded to 9 digits (`{:>09}`). -/
def write_line_tail (fi : FileInfo) : List Char :=
  mtime_lit ++ nat_to_dec (fi.mtime / 1000000000)
    ++ '.' :: pad9 (nat_to_dec (fi.mtime % 1000000000))
    ++ size_lit ++ nat_to_dec fi.len
    ++ fully_read_lit ++ nat_to_dec (fi.fully_read / 1000000000)
    ++ last_seen_lit ++ nat_to_dec (fi.last_seen / 1000000000)

/-- `FileInfo::write`, as the emitted line: `writeln!` appends a final
newline which `BufRead::lines` strips again before `FileInfo::parse` ever
sees the line, so the persisted line is modelled without it. -/
def FileInfo.write_line (fi : FileInfo) : List Char :=
  hexEncode fi.sha256_digest ++ ' ' :: fi.rel_path ++ write_line_tail fi

/-- The same record written with a single leading slash on the path: not a
line `FileInfo::write` emits, but one the parse pattern's `/?` tolerates. -/
def slashed_line (fi : FileInfo) : List Char :=
  hexEncode fi.sha256_digest ++ ' ' :: '/' :: fi.rel_path ++ write_line_tail fi

/-- The records the on-disk format can represent faithfully: a 32-byte
digest; a nonempty path without a leading slash (spec §3: paths are relative
with no leading slash) and without a newline (the record is stored on one
line; newlines are the claim's excluded control characters); `u64`-ranged
integer fields (`SystemTime` values beyond `u64` nanoseconds cannot be
reconstructed by `Duration::from_nanos`); and whole-second
`fully_read`/`last_seen` stamps, since §6 truncates them to seconds on
write. -/
def Representable (fi : FileInfo) : Prop :=
  fi.sha256_digest.length = 32 ∧ (∀ b ∈ fi.sha256_digest, b < 256) ∧
  fi.rel_path ≠ [] ∧ fi.rel_path.head? ≠ some '/' ∧ '\n' ∉ fi.rel_path ∧
  fi.mtime < 2 ^ 64 ∧ fi.len < 2 ^ 64 ∧
  fi.fully_read % 1000000000 = 0 ∧ fi.fully_read / 1000000000 < 2 ^ 64 ∧
  fi.last_seen % 1000000000 = 0 ∧ fi.last_seen / 1000000000 < 2 ^ 64

/-- Snapshot file name filter of `read_state`: name ends in `.state`. -/
def ends_with_state (name : List Char) : Bool := ".state".data.isSuffixOf name

inductive ReadStateError where
  | parse_failed (e : ParseError)
  | read_dir_failed
deriving DecidableEq

/-- Decoding of every line of the selected snapshot file into the
path-keyed map (src/state.rs lines 24-33): the first failing line fails the
whole load. -/
def parse_lines : List (List Char) → Except ParseError (List (List Char × FileInfo))
  | [] => .ok []
  | l :: rest =>
    match FileInfo.parse l with
    | .error e => .error e
    | .ok fi =>
      match parse_lines rest with
      | .error e => .error e
      | .ok acc => .ok ((fi.rel_path, fi) :: acc)

/-- `read_state` (src/state.rs lines 13-38).  `WalkDir::new(state_dir)` with
`max_depth(1)` yields the state directory itself first (depth 0), then its
immediate children sorted by file name (`OsString` byte order, which for
UTF-8 names is the lexicographic order on their characters); `none` content
marks the directory entry.  The last entry whose name ends in `.state` is
selected; no such entry yields the empty map.  If the selected entry is the
directory itself, `File::open` succeeds but the first line read fails and
the `l.unwrap()` at src/state.rs line 26 aborts: modelled as
`read_dir_failed`. -/
def read_state (dir_name : List Char) (children : List (List Char × List (List Char))) :
    Except ReadStateError (List (List Char × FileInfo)) :=
  let walked : List (List Char × Option (List (List Char))) :=
    (dir_name, none) ::
      (children.insertionSort fun a b => a.1 ≤ b.1).map (fun c => (c.1, some c.2))
  match (walked.filter fun e => ends_with_state e.1).getLast? with
  | none => .ok []
  | some (_, none) => .error .read_dir_failed
  | some (_, some ls) => (parse_lines ls).mapError .parse_failed

/-- Sample record mirroring the round-trip test of src/file_info.rs. -/
def sampleFileInfo : FileInfo :=
  { rel_path := "test/file.txt".data
    sha256_digest := List.replicate 32 5
    mtime := 1653660805133248800
    len := 123456
    fully_read := 1653660817000000000
    last_seen := 1653660810000000000 }

/-- Sample filesystem and record for engine witnesses. -/
def fsW : List Char → FsFile := fun _ => { len := 3, mtime := 7, sha256_digest := [1] }

def fiW : FileInfo :=
  { rel_path := "a".data, sha256_digest := [1], mtime := 7, len := 3,
    last_seen := 0, fully_read := 5 }

/-! ### Helper lemmas: the check engine -/

theorem remove_path_none (p : List Char) :
    ∀ l, (remove_path p l).1 = none → (remove_path p l).2 = l
  | [] => by simp [remove_path]
  | e :: rest => by
    intro h
    by_cases he : e.1 = p
    · simp [remove_path, he] at h
    · simp only [remove_path, if_neg he] at h ⊢
      exact congrArg (e :: ·) (remove_path_none p rest h)

theorem remove_path_some (p : List Char) :
    ∀ l fi, (remove_path p l).1 = some fi → (remove_path p l).2.length + 1 = l.length
  | [] => by simp [remove_path]
  | e :: rest => by
    intro fi h
    by_cases he : e.1 = p
    · simp [remove_path, he]
    · simp only [remove_path, if_neg he] at h ⊢
      simp only [List.length_cons]
      rw [← remove_path_some p rest fi h]

theorem walk_spec (fs : List Char → FsFile) (ra : Bool) (now : Nat) :
    ∀ files old_states,
      (walk fs ra now files old_states).2.1.length
          + (walk fs ra now files old_states).2.2.length = files.length ∧
      (walk fs ra now files old_states).1.length
          + (walk fs ra now files old_states).2.1.length
          + (walk fs ra now files old_states).2.2.countP isNeedsChecking
        = old_states.length ∧
      (∀ o ∈ (walk fs ra now files old_states).2.1, isUnmodifed o = true)
  | [], old_states => by simp [walk]
  | path :: files, old_states => by
    rcases hrp : remove_path path old_states with ⟨opt, snap'⟩
    have ih := walk_spec fs ra now files snap'
    cases opt with
    | none =>
      have hl : snap' = old_states := by
        have h1 : (remove_path path old_states).1 = none := by rw [hrp]
        have h2 := remove_path_none path old_states h1
        rw [hrp] at h2; exact h2
      subst hl
      simp only [walk, hrp]
      refine ⟨?_, ?_, ih.2.2⟩
      · have := ih.1
        simp only [List.length_cons]
        omega
      · rw [List.countP_cons_of_neg _ _ (by simp [isNeedsChecking])]
        exact ih.2.1
    | some fi =>
      have hlen : snap'.length + 1 = old_states.length := by
        have h1 : (remove_path path old_states).1 = some fi := by rw [hrp]
        have h2 := remove_path_some path old_states fi h1
        rw [hrp] at h2; exact h2
      cases hnr : needs_reading fi (fs path) || ra with
      | true =>
        simp only [walk, hrp, hnr, if_true]
        refine ⟨?_, ?_, ih.2.2⟩
        · have := ih.1
          simp only [List.length_cons]
          omega
        · rw [List.countP_cons_of_pos _ _ (by simp [isNeedsChecking])]
          have := ih.2.1
          omega
      | false =>
        simp only [walk, hrp, hnr, Bool.false_eq_true, if_false]
        refine ⟨?_, ?_, ?_⟩
        · have := ih.1
          simp only [List.length_cons]
          omega
        · have := ih.2.1
          simp only [List.length_cons]
          omega
        · intro o ho
          rcases List.mem_cons.mp ho with ho | ho
          · simp [ho, isUnmodifed]
          · exact ih.2.2 o ho

theorem check_counts (fs : List Char → FsFile) (now : Nat) :
    ∀ tasks : List FileToCheck,
      tasks.countP (fun t => isNew (t.check fs now)) = tasks.countP isNewTask ∧
      tasks.countP (fun t => isUnmodifed (t.check fs now))
          + tasks.countP (fun t => isModified (t.check fs now))
        = tasks.countP isNeedsChecking ∧
      tasks.countP (fun t => isMissing (t.check fs now)) = 0
  | [] => by simp
  | t :: tasks => by
    obtain ⟨ih1, ih2, ih3⟩ := check_counts fs now tasks
    cases t with
    | New p =>
      rw [List.countP_cons_of_pos _ _ (by simp [FileToCheck.check, isNew]),
        List.countP_cons_of_pos _ _ (by simp [isNewTask]),
        List.countP_cons_of_neg _ _ (by simp [FileToCheck.check, isUnmodifed]),
        List.countP_cons_of_neg _ _ (by simp [FileToCheck.check, isModified]),
        List.countP_cons_of_neg _ _ (by simp [isNeedsChecking]),
        List.countP_cons_of_neg _ _ (by simp [FileToCheck.check, isMissing])]
      omega
    | NeedsChecking fi =>
      by_cases hd : (hash_file fs now fi.rel_path).sha256_digest = fi.sha256_digest
      · rw [List.countP_cons_of_neg _ _ (by simp [FileToCheck.check, hd, isNew]),
          List.countP_cons_of_neg _ _ (by simp [isNewTask]),
          List.countP_cons_of_pos _ _ (by simp [FileToCheck.check, hd, isUnmodifed]),
          List.countP_cons_of_neg _ _ (by simp [FileToCheck.check, hd, isModified]),
          List.countP_cons_of_pos _ _ (by simp [isNeedsChecking]),
          List.countP_cons_of_neg _ _ (by simp [FileToCheck.check, hd, isMissing])]
        omega
      · rw [List.countP_cons_of_neg _ _ (by simp [FileToCheck.check, hd, isNew]),
          List.countP_cons_of_neg _ _ (by simp [isNewTask]),
          List.countP_cons_of_neg _ _ (by simp [FileToCheck.check, hd, isUnmodifed]),
          List.countP_cons_of_pos _ _ (by simp [FileToCheck.check, hd, isModified]),
          List.countP_cons_of_pos _ _ (by simp [isNeedsChecking]),
          List.countP_cons_of_neg _ _ (by simp [FileToCheck.check, hd, isMissing])]
        omega

theorem task_kinds : ∀ tasks : List FileToCheck,
    tasks.countP isNewTask + tasks.countP isNeedsChecking = tasks.length
  | [] => by simp
  | t :: tasks => by
    have ih := task_kinds tasks
    cases t with
    | New p =>
      rw [List.countP_cons_of_pos _ _ (by simp [isNewTask]),
        List.countP_cons_of_neg _ _ (by simp [isNeedsChecking])]
      simp only [List.length_cons]
      omega
    | NeedsChecking fi =>
      rw [List.countP_cons_of_neg _ _ (by simp [isNewTask]),
        List.countP_cons_of_pos _ _ (by simp [isNeedsChecking])]
      simp only [List.length_cons]
      omega

theorem unmod_counts {l : List FileCheckResult} (h : ∀ o ∈ l, isUnmodifed o = true) :
    l.countP isUnmodifed = l.length ∧ l.countP isNew = 0 ∧ l.countP isModified = 0 ∧
      l.countP isMissing = 0 := by
  refine ⟨List.countP_eq_length.mpr h, ?_, ?_, ?_⟩ <;>
    · rw [List.countP_eq_zero]
      intro o ho
      have := h o ho
      cases o <;> simp_all [isUnmodifed, isNew, isModified, isMissing]

theorem missing_map_counts : ∀ l : List (List Char × FileInfo),
    (l.map (fun e => FileCheckResult.Missing e.2)).countP isMissing = l.length ∧
    (l.map (fun e => FileCheckResult.Missing e.2)).countP isNew = 0 ∧
    (l.map (fun e => FileCheckResult.Missing e.2)).countP isUnmodifed = 0 ∧
    (l.map (fun e => FileCheckResult.Missing e.2)).countP isModified = 0
  | [] => by simp
  | e :: l => by
    obtain ⟨ih1, ih2, ih3, ih4⟩ := missing_map_counts l
    simp only [List.map_cons]
    rw [List.countP_cons_of_pos _ _ (by simp [isMissing]),
      List.countP_cons_of_neg _ _ (by simp [isNew]),
      List.countP_cons_of_neg _ _ (by simp [isUnmodifed]),
      List.countP_cons_of_neg _ _ (by simp [isModified])]
    simp only [List.length_cons]
    omega

/-- C1: for every run with `files` candidate paths and `old_states` prior
snapshot entries (stat and read failures being absent by the totality of the
modelled filesystem), the collected outcome list partitions the inputs
exactly: `|New| + |Unchanged| + |Modified|` equals the number of candidates,
`|Unchanged| + |Modified| + |Missing|` equals the number of prior entries,
and the four kinds together exhaust the outcome list, so no path is skipped
or double-counted. -/
theorem C1_classification_partition (fs : List Char → FsFile) (ra : Bool) (now : Nat)
    (old_states : List (List Char × FileInfo)) (files : List (List Char)) :
    ((run_check fs ra now old_states files).outcomes.countP isNew
        + (run_check fs ra now old_states files).outcomes.countP isUnmodifed
        + (run_check fs ra now old_states files).outcomes.countP isModified
      = files.length) ∧
    ((run_check fs ra now old_states files).outcomes.countP isUnmodifed
        + (run_check fs ra now old_states files).outcomes.countP isModified
        + (run_check fs ra now old_states files).outcomes.countP isMissing
      = old_states.length) ∧
    ((run_check fs ra now old_states files).outcomes.countP isNew
        + (run_check fs ra now old_states files).outcomes.countP isUnmodifed
        + (run_check fs ra now old_states files).outcomes.countP isModified
        + (run_check fs ra now old_states files).outcomes.countP isMissing
      = (run_check fs ra now old_states files).outcomes.length) := by
  obtain ⟨hw1, hw2, hw3⟩ := walk_spec fs ra now files old_states
  obtain ⟨hc1, hc2, hc3⟩ := check_counts fs now (walk fs ra now files old_states).2.2
  have htk := task_kinds (walk fs ra now files old_states).2.2
  obtain ⟨hu1, hu2, hu3, hu4⟩ := unmod_counts hw3
  obtain ⟨hm1, hm2, hm3, hm4⟩ := missing_map_counts (walk fs ra now files old_states).1
  simp only [run_check, List.countP_append, List.length_append, List.length_map,
    List.countP_map, Function.comp_def] at *
  omega

/-- C7: a tracked file whose current size and modification time equal the
stored record's, with the force-full-read flag unset, is classified
`Unmodifed` with no content read: the emitted record keeps the prior digest,
size, mtime and `fully_read` and only `last_seen` is set to the current
time; the read list is empty, and the file still counts in `files_checked`
(which equals the full prior-entry count here, the one candidate plus the
remaining entries). -/
theorem C7_metadata_skip (fs : List Char → FsFile) (now : Nat)
    (old_states snap' : List (List Char × FileInfo)) (p : List Char) (fi : FileInfo)
    (hrem : remove_path p old_states = (some fi, snap'))
    (hmtime : fi.mtime = (fs p).mtime) (hlen : fi.len = (fs p).len) :
    (run_check fs false now old_states [p]).outcomes
        = .Unmodifed { fi with last_seen := now }
            :: snap'.map (fun e => FileCheckResult.Missing e.2) ∧
    (run_check fs false now old_states [p]).reads = [] ∧
    (run_check fs false now old_states [p]).files_checked = old_states.length ∧
    ({ fi with last_seen := now } : FileInfo).sha256_digest = fi.sha256_digest ∧
    ({ fi with last_seen := now } : FileInfo).len = fi.len ∧
    ({ fi with last_seen := now } : FileInfo).mtime = fi.mtime ∧
    ({ fi with last_seen := now } : FileInfo).fully_read = fi.fully_read ∧
    ({ fi with last_seen := now } : FileInfo).last_seen = now := by
  have hnr : needs_reading fi (fs p) = false := by
    simp [needs_reading, hmtime, hlen]
  have hfc : snap'.length + 1 = old_states.length := by
    have h1 : (remove_path p old_states).1 = some fi := by rw [hrem]
    have h2 := remove_path_some p old_states fi h1
    rw [hrem] at h2; exact h2
  refine ⟨?_, ?_, ?_, rfl, rfl, rfl, rfl, rfl⟩ <;>
    simp [run_check, walk, hrem, hnr] <;> omega

theorem C7_witness :
    (run_check fsW false 9 [("a".data, fiW)] ["a".data]).outcomes
        = .Unmodifed { fiW with last_seen := 9 }
            :: List.map (fun e => FileCheckResult.Missing e.2) ([] : List (List Char × FileInfo)) ∧
    (run_check fsW false 9 [("a".data, fiW)] ["a".data]).reads = [] ∧
    (run_check fsW false 9 [("a".data, fiW)] ["a".data]).files_checked
        = [("a".data, fiW)].length ∧
    ({ fiW with last_seen := 9 } : FileInfo).sha256_digest = fiW.sha256_digest ∧
    ({ fiW with last_seen := 9 } : FileInfo).len = fiW.len ∧
    ({ fiW with last_seen := 9 } : FileInfo).mtime = fiW.mtime ∧
    ({ fiW with last_seen := 9 } : FileInfo).fully_read = fiW.fully_read ∧
    ({ fiW with last_seen := 9 } : FileInfo).last_seen = 9 :=
  C7_metadata_skip fsW 9 [("a".data, fiW)] [] "a".data fiW (by decide) (by decide) (by decide)

/-! ### Helper lemmas: the dedup pass -/

theorem mem_present (l : List FileCheckResult) (d : List Nat) :
    d ∈ present_sha256_digests l ↔ present_on_disk l d = true := by
  simp only [present_sha256_digests, List.mem_filterMap, present_on_disk, List.any_eq_true]
  constructor
  · rintro ⟨f, hf, he⟩
    refine ⟨f, hf, ?_⟩
    cases f <;> simp_all [present_digest]
  · rintro ⟨f, hf, he⟩
    refine ⟨f, hf, ?_⟩
    cases f <;> simp_all [present_digest]

theorem countP_split {α} (p q : α → Bool) (h : ∀ a, ¬(p a = true ∧ q a = true)) :
    ∀ l : List α, l.countP (fun a => p a || q a) = l.countP p + l.countP q
  | [] => by simp
  | a :: l => by
    have ih := countP_split p q h l
    by_cases hp : p a = true
    · have hq : ¬q a = true := fun hq => h a ⟨hp, hq⟩
      rw [List.countP_cons_of_pos _ _ (by simp [hp]),
        List.countP_cons_of_pos _ _ hp, List.countP_cons_of_neg _ _ hq]
      omega
    · by_cases hq : q a = true
      · rw [List.countP_cons_of_pos _ _ (by simp [hq]),
          List.countP_cons_of_neg _ _ hp, List.countP_cons_of_pos _ _ hq]
        omega
      · rw [List.countP_cons_of_neg _ _ (by simp [hp, hq]),
          List.countP_cons_of_neg _ _ hp, List.countP_cons_of_neg _ _ hq]
        omega

/-- C2: the dedup pass of update mode behaves exactly as described, with the
present-set read extensionally off the input list: every `Missing` outcome
whose digest is present on disk is dropped, every other `Missing` outcome is
kept; every `Modified` outcome whose previous digest is present on disk is
replaced by `New` carrying the current record, every other `Modified`
outcome is kept; `New` and `Unchanged` outcomes pass through unchanged; and
the duplicate-removed counter counts the dropped `Missing` outcomes
(together with the reclassified `Modified` ones, which the source counts
too). -/
theorem C2_dedup_behaviour (l : List FileCheckResult) :
    dedup_pass l = l.filterMap (fun f =>
      match f with
      | .Missing fi =>
        if present_on_disk l fi.sha256_digest then none else some (.Missing fi)
      | .Modified m =>
        if present_on_disk l m.previous.sha256_digest then some (.New m.current)
        else some (.Modified m)
      | f => some f) ∧
    duplicates_removed l
      = l.countP (fun f =>
          match f with
          | .Missing fi => present_on_disk l fi.sha256_digest
          | _ => false)
        + l.countP (fun f =>
          match f with
          | .Modified m => present_on_disk l m.previous.sha256_digest
          | _ => false) := by
  constructor
  · unfold dedup_pass
    apply List.filterMap_congr
    intro f hf
    cases f with
    | Missing fi =>
      simp only [dedup_step]
      by_cases hp : fi.sha256_digest ∈ present_sha256_digests l
      · rw [if_pos hp, if_pos ((mem_present l _).mp hp)]
      · rw [if_neg hp, if_neg (fun hq => hp ((mem_present l _).mpr hq))]
    | Modified m =>
      simp only [dedup_step]
      by_cases hp : m.previous.sha256_digest ∈ present_sha256_digests l
      · rw [if_pos hp, if_pos ((mem_present l _).mp hp)]
      · rw [if_neg hp, if_neg (fun hq => hp ((mem_present l _).mpr hq))]
    | New fi => rfl
    | Unmodifed fi => rfl
  · rw [← countP_split _ _ (by intro a; cases a <;> simp)]
    unfold duplicates_removed
    apply List.countP_congr
    intro f hf
    cases f <;> simp [mem_present]

/-- Per-element effect of a dedup step on the present-set contribution. -/
theorem dedup_step_present (ps : List (List Nat)) (f : FileCheckResult) :
    (dedup_step ps f = none → present_digest f = none) ∧
    (∀ f', dedup_step ps f = some f' → present_digest f' = present_digest f) := by
  cases f with
  | Missing fi =>
    by_cases hp : fi.sha256_digest ∈ ps <;>
      simp_all [dedup_step, present_digest]
  | Modified m =>
    by_cases hp : m.previous.sha256_digest ∈ ps <;>
      simp_all [dedup_step, present_digest]
  | New fi => simp [dedup_step, present_digest]
  | Unmodifed fi => simp [dedup_step, present_digest]

theorem dedup_preserves_present (ps : List (List Nat)) :
    ∀ l : List FileCheckResult,
      (l.filterMap (dedup_step ps)).filterMap present_digest = l.filterMap present_digest
  | [] => rfl
  | f :: l => by
    have ih := dedup_preserves_present ps l
    obtain ⟨h1, h2⟩ := dedup_step_present ps f
    cases hs : dedup_step ps f with
    | none =>
      simp only [List.filterMap_cons, hs, h1 hs, ih]
    | some f' =>
      simp only [List.filterMap_cons, hs]
      cases hp : present_digest f with
      | none => rw [h2 f' hs, hp, ih]
      | some d => rw [h2 f' hs, hp, ih]

theorem dedup_step_fixed (ps : List (List Nat)) (f f' : FileCheckResult)
    (h : dedup_step ps f = some f') : dedup_step ps f' = some f' := by
  cases f with
  | Missing fi =>
    by_cases hp : fi.sha256_digest ∈ ps <;> simp_all [dedup_step]
    rw [← h]; simp [dedup_step, hp]
  | Modified m =>
    by_cases hp : m.previous.sha256_digest ∈ ps <;> simp_all [dedup_step] <;>
      rw [← h] <;> simp [dedup_step, hp]
  | New fi => simp only [dedup_step] at h; cases h; rfl
  | Unmodifed fi => simp only [dedup_step] at h; cases h; rfl

theorem filterMap_fixed {α} (g : α → Option α) :
    ∀ l : List α, (∀ a ∈ l, g a = some a) → l.filterMap g = l
  | [] => fun _ => rfl
  | a :: l => fun h => by
    rw [List.filterMap_cons, h a (List.mem_cons_self a l),
      filterMap_fixed g l (fun b hb => h b (List.mem_cons_of_mem a hb))]

/-- C8: the dedup pass is idempotent — running it twice over any outcome
list yields the same list as running it once (the pass only drops entries
that contribute nothing to the present-set and rewrites `Modified` entries
into `New` ones carrying the same present digest, so the present-set, and
with it every filtering decision, is unchanged on the second run). -/
theorem C8_dedup_idempotent (l : List FileCheckResult) :
    dedup_pass (dedup_pass l) = dedup_pass l := by
  unfold dedup_pass
  rw [show present_sha256_digests (l.filterMap (dedup_step (present_sha256_digests l)))
      = present_sha256_digests l from dedup_preserves_present _ l]
  apply filterMap_fixed
  intro f' hf'
  obtain ⟨f, _, hstep⟩ := List.mem_filterMap.mp hf'
  exact dedup_step_fixed _ f f' hstep

/-! ### The verify policy matrix -/

/-- C5: the verify rule for ignore-missing true, presence-only false fails
exactly when some `Modified` outcome is present — `Missing` outcomes never
fail it and `New` (untracked) outcomes never fail it — and the error always
carries the `Modified` count together with the `New` count that is merely
reported. -/
theorem C5_verify_ignore_missing (l : List FileCheckResult) :
    ((∃ e, verify true false l = .error e) ↔ ∃ m, FileCheckResult.Modified m ∈ l) ∧
    (∀ e, verify true false l = .error e →
      e = .changed (l.countP isModified) (l.countP isNew)) := by
  by_cases h : l.countP isModified > 0
  · constructor
    · constructor
      · intro _
        obtain ⟨f, hf, hm⟩ := List.countP_pos_iff.mp h
        cases f <;> simp_all [isModified]
        exact ⟨_, hf⟩
      · intro _
        exact ⟨_, by simp only [verify]; rw [if_pos h]⟩
    · intro e he
      simp only [verify] at he
      rw [if_pos h] at he
      exact (Except.error.inj he).symm
  · constructor
    · constructor
      · intro ⟨e, he⟩
        simp only [verify] at he
        rw [if_neg h] at he
        exact Except.noConfusion he
      · intro ⟨m, hm⟩
        exact absurd (List.countP_pos_iff.mpr ⟨_, hm, by simp [isModified]⟩) h
    · intro e he
      simp only [verify] at he
      rw [if_neg h] at he
      exact Except.noConfusion he

theorem C5_verify_ignore_missing_witness :
    ((∃ e, verify true false [.Modified ⟨fiW, fiW⟩] = .error e)
        ↔ ∃ m, FileCheckResult.Modified m ∈ [FileCheckResult.Modified ⟨fiW, fiW⟩]) ∧
    (∀ e, verify true false [.Modified ⟨fiW, fiW⟩] = .error e →
      e = .changed (List.countP isModified [.Modified ⟨fiW, fiW⟩])
            (List.countP isNew [.Modified ⟨fiW, fiW⟩])) :=
  C5_verify_ignore_missing [.Modified ⟨fiW, fiW⟩]

/-- C6: the verify rule for ignore-missing false, presence-only true fails
exactly when some found digest (of a `New` or `Modified`-current outcome) is
absent from the archived digest set, or some archived digest is matched by
no `New`, `Unchanged`, or `Modified`-current outcome; when both set
differences are empty the run passes.  The archived digest set consists of
precisely the `Unchanged`, `Missing`, and `Modified`-previous digests. -/
theorem C6_verify_presence (l : List FileCheckResult) :
    ((∃ e, verify false true l = .error e) ↔
      ((∃ f ∈ l, found_not_archived l f = true) ∨
        ∃ d ∈ archive_sha256_digests l, ¬∃ f ∈ l, present_digest f = some d)) ∧
    (∀ d, d ∈ archive_sha256_digests l ↔ ∃ f ∈ l, archived_digest f = some d) := by
  have harch : ∀ d, d ∈ archive_sha256_digests l ↔ ∃ f ∈ l, archived_digest f = some d := by
    intro d
    simp [archive_sha256_digests, List.mem_dedup, List.mem_filterMap]
  refine ⟨?_, harch⟩
  have hcond : (count_not_present l > 0
        ∨ ((archive_sha256_digests l).filter
            (fun d => !(present_sha256_digests l).contains d)).length > 0) ↔
      ((∃ f ∈ l, found_not_archived l f = true) ∨
        ∃ d ∈ archive_sha256_digests l, ¬∃ f ∈ l, present_digest f = some d) := by
    apply or_congr
    · exact ⟨fun h => List.countP_pos.mp h, fun h => List.countP_pos.mpr h⟩
    · rw [gt_iff_lt, List.length_pos_iff_exists_mem]
      constructor
      · intro ⟨d, hd⟩
        obtain ⟨hda, hdp⟩ := List.mem_filter.mp hd
        refine ⟨d, hda, ?_⟩
        intro ⟨f, hf, hpf⟩
        have : d ∈ present_sha256_digests l := List.mem_filterMap.mpr ⟨f, hf, hpf⟩
        simp_all
      · intro ⟨d, hda, hnp⟩
        refine ⟨d, List.mem_filter.mpr ⟨hda, ?_⟩⟩
        simp only [Bool.not_eq_true', ← Bool.not_eq_true]
        intro hc
        have hm : d ∈ present_sha256_digests l := by simpa using hc
        exact hnp (List.mem_filterMap.mp hm)
    
  by_cases h : count_not_present l > 0
      ∨ ((archive_sha256_digests l).filter
          (fun d => !(present_sha256_digests l).contains d)).length > 0
  · rw [← hcond]
    simp only [h, iff_true]
    refine ⟨.presence (count_not_present l)
      ((archive_sha256_digests l).filter
        (fun d => !(present_sha256_digests l).contains d)).length, ?_⟩
    simp only [verify]
    rw [if_pos h]
  · rw [← hcond]
    simp only [h, iff_false]
    intro ⟨e, he⟩
    simp only [verify] at he
    rw [if_neg h] at he
    exact Except.noConfusion he

theorem C6_verify_presence_witness :
    ((∃ e, verify false true [.Missing fiW] = .error e) ↔
      ((∃ f ∈ [FileCheckResult.Missing fiW], found_not_archived [.Missing fiW] f = true) ∨
        ∃ d ∈ archive_sha256_digests [.Missing fiW],
          ¬∃ f ∈ [FileCheckResult.Missing fiW], present_digest f = some d)) ∧
    (∀ d, d ∈ archive_sha256_digests [.Missing fiW]
        ↔ ∃ f ∈ [FileCheckResult.Missing fiW], archived_digest f = some d) :=
  C6_verify_presence [.Missing fiW]

/-! ### Helper lemmas: decimal and hex rendering -/

theorem decDigit_spec : ∀ n < 10,
    isAsciiDigit (decDigitChars.getD n '0') = true ∧
    digitVal (decDigitChars.getD n '0') = n := by decide

theorem hexDigit_spec : ∀ i < 16,
    isHexLowerChar (hexDigitChars.getD i '0') = true ∧
    hexVal (hexDigitChars.getD i '0') = i := by decide

theorem nat_from_digits_append_singleton (xs : List Char) (c : Char) :
    nat_from_digits (xs ++ [c]) = nat_from_digits xs * 10 + digitVal c := by
  simp [nat_from_digits, List.foldl_append]

theorem nat_to_dec_aux_spec : ∀ fuel n, n < fuel →
    nat_to_dec_aux fuel n ≠ [] ∧
    (∀ c ∈ nat_to_dec_aux fuel n, isAsciiDigit c = true) ∧
    nat_from_digits (nat_to_dec_aux fuel n) = n
  | fuel + 1, n, hfuel => by
    by_cases h10 : n < 10
    · simp only [nat_to_dec_aux, if_pos h10]
      refine ⟨by simp, ?_, ?_⟩
      · intro c hc
        rw [List.mem_singleton.mp hc]
        exact (decDigit_spec n h10).1
      · have hd := (decDigit_spec n h10).2
        simp only [nat_from_digits, List.foldl_cons, List.foldl_nil]
        omega
    · have hlt : n / 10 < fuel := by
        have : n / 10 < n := Nat.div_lt_self (by omega) (by omega)
        omega
      obtain ⟨ih1, ih2, ih3⟩ := nat_to_dec_aux_spec fuel (n / 10) hlt
      have hmod := decDigit_spec (n % 10) (Nat.mod_lt n (by omega))
      simp only [nat_to_dec_aux, if_neg h10]
      refine ⟨by simp, ?_, ?_⟩
      · intro c hc
        rcases List.mem_append.mp hc with hc | hc
        · exact ih2 c hc
        · rw [List.mem_singleton.mp hc]
          exact hmod.1
      · rw [nat_from_digits_append_singleton, ih3, hmod.2]
        omega

theorem nat_to_dec_spec (n : Nat) :
    nat_to_dec n ≠ [] ∧ (∀ c ∈ nat_to_dec n, isAsciiDigit c = true) ∧
    nat_from_digits (nat_to_dec n) = n :=
  nat_to_dec_aux_spec (n + 1) n (Nat.lt_succ_self n)

theorem nat_to_dec_aux_len : ∀ fuel n k, n < fuel → n < 10 ^ k → 0 < k →
    (nat_to_dec_aux fuel n).length ≤ k
  | fuel + 1, n, k, _, hk, hk0 => by
    by_cases h10 : n < 10
    · simp only [nat_to_dec_aux, if_pos h10, List.length_singleton]
      omega
    · have hk2 : 2 ≤ k := by
        by_contra hlt
        have : k = 1 := by omega
        subst this
        simp at hk
        omega
      have hlt : n / 10 < fuel := by
        have : n / 10 < n := Nat.div_lt_self (by omega) (by omega)
        omega
      have hdiv : n / 10 < 10 ^ (k - 1) := by
        rw [Nat.div_lt_iff_lt_mul (by omega)]
        calc n < 10 ^ k := hk
        _ = 10 ^ (k - 1) * 10 := by
            rw [← Nat.pow_succ]
            congr 1
            omega
      have ih := nat_to_dec_aux_len fuel (n / 10) (k - 1) hlt hdiv (by omega)
      simp only [nat_to_dec_aux, if_neg h10, List.length_append, List.length_singleton]
      omega

theorem nat_to_dec_len (n k : Nat) (h : n < 10 ^ k) (hk : 0 < k) :
    (nat_to_dec n).length ≤ k :=
  nat_to_dec_aux_len (n + 1) n k (Nat.lt_succ_self n) h hk

theorem nat_from_digits_replicate_zero : ∀ k (ds : List Char),
    nat_from_digits (List.replicate k '0' ++ ds) = nat_from_digits ds
  | 0, ds => rfl
  | k + 1, ds => by
    have := nat_from_digits_replicate_zero k ds
    simp only [List.replicate_succ, List.cons_append]
    simp only [nat_from_digits, List.foldl_cons] at this ⊢
    simpa [digitVal] using this

theorem pad9_spec (ds : List Char) (hlen : ds.length ≤ 9)
    (hd : ∀ c ∈ ds, isAsciiDigit c = true) :
    (pad9 ds).length = 9 ∧ (∀ c ∈ pad9 ds, isAsciiDigit c = true) ∧
    nat_from_digits (pad9 ds) = nat_from_digits ds := by
  refine ⟨by simp [pad9]; omega, ?_, nat_from_digits_replicate_zero _ ds⟩
  intro c hc
  rcases List.mem_append.mp hc with hc | hc
  · rw [List.eq_of_mem_replicate hc]; decide
  · exact hd c hc

/-! ### Helper lemmas: hex -/

theorem byteToHex_spec (b : Nat) (hb : b < 256) :
    (∀ c ∈ byteToHex b, isHexLowerChar c = true) ∧
    (byteToHex b).length = 2 ∧
    ∀ rest, hexPairs (byteToHex b ++ rest) = (hexPairs rest).map (b :: ·) := by
  have h1 := hexDigit_spec (b / 16) (by omega)
  have h2 := hexDigit_spec (b % 16) (Nat.mod_lt b (by omega))
  refine ⟨?_, rfl, ?_⟩
  · intro c hc
    rcases List.mem_cons.mp hc with hc | hc
    · rw [hc]; exact h1.1
    rcases List.mem_cons.mp hc with hc | hc
    · rw [hc]; exact h2.1
    · exact absurd hc (List.not_mem_nil c)
  · intro rest
    show hexPairs (_ :: _ :: rest) = _
    rw [hexPairs]
    rw [if_pos (by rw [h1.1, h2.1]; rfl)]
    congr 1
    funext t
    rw [h1.2, h2.2]
    congr 1
    omega

theorem hexEncode_spec : ∀ bytes : List Nat, (∀ b ∈ bytes, b < 256) →
    (∀ c ∈ hexEncode bytes, isHexLowerChar c = true) ∧
    (hexEncode bytes).length = 2 * bytes.length ∧
    hexPairs (hexEncode bytes) = some bytes
  | [], _ => ⟨by simp [hexEncode], by simp [hexEncode], rfl⟩
  | b :: bytes, h => by
    obtain ⟨ih1, ih2, ih3⟩ := hexEncode_spec bytes (fun x hx => h x (List.mem_cons_of_mem b hx))
    obtain ⟨hb1, hb2, hb3⟩ := byteToHex_spec b (h b (List.mem_cons_self b bytes))
    have hunfold : hexEncode (b :: bytes) = byteToHex b ++ hexEncode bytes := by
      simp [hexEncode]
    refine ⟨?_, ?_, ?_⟩
    · intro c hc
      rw [hunfold] at hc
      rcases List.mem_append.mp hc with hc | hc
      · exact hb1 c hc
      · exact ih1 c hc
    · rw [hunfold, List.length_append, hb2, ih2, List.length_cons]
      omega
    · rw [hunfold, hb3 (hexEncode bytes), ih3]
      rfl

/-! ### Helper lemmas: the matcher primitives -/

theorem takeCountHex_exact : ∀ (h : List Char) (s : List Char),
    (∀ c ∈ h, isHexLowerChar c = true) → takeCountHex h.length (h ++ s) = some (h, s)
  | [], s, _ => rfl
  | c :: h, s, hx => by
    have ih := takeCountHex_exact h s (fun d hd => hx d (List.mem_cons_of_mem c hd))
    simp only [List.length_cons, List.cons_append, takeCountHex,
      hx c (List.mem_cons_self c h), if_true, List.append_eq, ih, Option.map_some']

theorem takeDigits_prefix : ∀ (ds rest : List Char),
    (∀ c ∈ ds, isAsciiDigit c = true) →
    (∀ c, rest.head? = some c → isAsciiDigit c = false) →
    takeDigits (ds ++ rest) = (ds, rest)
  | [], rest, _, hrest => by
    cases rest with
    | nil => rfl
    | cons c r =>
      simp only [List.nil_append, takeDigits, hrest c rfl, Bool.false_eq_true, if_false]
  | d :: ds, rest, hds, hrest => by
    have ih := takeDigits_prefix ds rest (fun c hc => hds c (List.mem_cons_of_mem d hc)) hrest
    simp only [List.cons_append, takeDigits, hds d (List.mem_cons_self d ds), if_true,
      List.append_eq, ih]

theorem dropLit_prefix : ∀ lit s : List Char, dropLit lit (lit ++ s) = some s
  | [], s => rfl
  | c :: lit, s => by
    simp only [List.cons_append, dropLit, if_pos rfl]
    exact dropLit_prefix lit s

theorem optFrac_no_dot (s : List Char) (h : s.head? ≠ some '.') : optFrac s = s := by
  cases s with
  | nil => rfl
  | cons c r =>
    simp only [optFrac]
    split
    · rename_i rest heq
      injection heq with h1 h2
      exact absurd (by rw [h1]; rfl) h
    · rfl

theorem head_not_digit {c0 : Char} (h0 : isAsciiDigit c0 = false) (X : List Char) :
    ∀ c, ((c0 :: X).head? = some c) → isAsciiDigit c = false := by
  intro c hc
  simp only [List.head?_cons, Option.some.injEq] at hc
  rw [← hc]
  exact h0

theorem optFrac_consume (fd rest : List Char) (hfd : fd ≠ [])
    (hd : ∀ c ∈ fd, isAsciiDigit c = true)
    (hrest : ∀ c, rest.head? = some c → isAsciiDigit c = false) :
    optFrac ('.' :: (fd ++ rest)) = rest := by
  simp only [optFrac, takeDigits_prefix fd rest hd hrest]
  rw [if_neg hfd]

theorem dropLit_dot (X : List Char) : dropLit dot_lit ('.' :: X) = some X := rfl

/-- The continuation after the path succeeds on a well-formed numeric tail
and captures exactly its five digit fields, regardless of what follows the
final field (the match is unanchored on the right). -/
theorem tailAfterPath_build (ms ns sz fr ls frfrac tailrest : List Char)
    (hms : ms ≠ []) (hmsd : ∀ c ∈ ms, isAsciiDigit c = true)
    (hns : ns ≠ []) (hnsd : ∀ c ∈ ns, isAsciiDigit c = true)
    (hsz : sz ≠ []) (hszd : ∀ c ∈ sz, isAsciiDigit c = true)
    (hfr : fr ≠ []) (hfrd : ∀ c ∈ fr, isAsciiDigit c = true)
    (hls : ls ≠ []) (hlsd : ∀ c ∈ ls, isAsciiDigit c = true)
    (hfrac : frfrac = [] ∨ ∃ d, d ≠ [] ∧ (∀ c ∈ d, isAsciiDigit c = true) ∧ frfrac = '.' :: d)
    (hrest : ∀ c, tailrest.head? = some c → isAsciiDigit c = false) :
    tailAfterPath (mtime_lit ++ (ms ++ '.' :: (ns ++ (size_lit ++ (sz
        ++ (fully_read_lit ++ (fr ++ (frfrac ++ (last_seen_lit
        ++ (ls ++ tailrest))))))))))
      = some ⟨ms, ns, sz, fr, ls⟩ := by
  have h1 : takeDigits (ms ++ '.' :: (ns ++ (size_lit ++ (sz
      ++ (fully_read_lit ++ (fr ++ (frfrac ++ (last_seen_lit
      ++ (ls ++ tailrest)))))))))
      = (ms, '.' :: (ns ++ (size_lit ++ (sz ++ (fully_read_lit
        ++ (fr ++ (frfrac ++ (last_seen_lit ++ (ls ++ tailrest))))))))) :=
    takeDigits_prefix _ _ hmsd (head_not_digit (by decide) _)
  have h2 : takeDigits (ns ++ (size_lit ++ (sz ++ (fully_read_lit
      ++ (fr ++ (frfrac ++ (last_seen_lit ++ (ls ++ tailrest))))))))
      = (ns, size_lit ++ (sz ++ (fully_read_lit
        ++ (fr ++ (frfrac ++ (last_seen_lit ++ (ls ++ tailrest))))))) :=
    takeDigits_prefix _ _ hnsd (head_not_digit (by decide) _)
  have hfrtail : ∀ c, ((frfrac ++ (last_seen_lit ++ (ls ++ tailrest))).head? = some c)
      → isAsciiDigit c = false := by
    rcases hfrac with hff | ⟨d, _, _, hff⟩ <;> subst hff
    · intro c hc
      simp only [List.nil_append] at hc
      exact head_not_digit (by decide) _ c hc
    · intro c hc
      simp only [List.cons_append] at hc
      exact head_not_digit (by decide) _ c hc
  have h3 : takeDigits (sz ++ (fully_read_lit
      ++ (fr ++ (frfrac ++ (last_seen_lit ++ (ls ++ tailrest))))))
      = (sz, fully_read_lit
        ++ (fr ++ (frfrac ++ (last_seen_lit ++ (ls ++ tailrest))))) :=
    takeDigits_prefix _ _ hszd (head_not_digit (by decide) _)
  have h4 : takeDigits (fr ++ (frfrac ++ (last_seen_lit ++ (ls ++ tailrest))))
      = (fr, frfrac ++ (last_seen_lit ++ (ls ++ tailrest))) :=
    takeDigits_prefix _ _ hfrd hfrtail
  have h5 : takeDigits (ls ++ tailrest) = (ls, tailrest) :=
    takeDigits_prefix _ _ hlsd hrest
  have hopt : optFrac (frfrac ++ (last_seen_lit ++ (ls ++ tailrest)))
      = last_seen_lit ++ (ls ++ tailrest) := by
    rcases hfrac with hff | ⟨d, hdne, hdd, hff⟩ <;> subst hff
    · simp only [List.nil_append]
      exact optFrac_no_dot _ (by intro hc; exact absurd (Option.some.inj hc) (by decide))
    · simp only [List.cons_append]
      exact optFrac_consume d _ hdne hdd (head_not_digit (by decide) _)
  simp only [tailAfterPath, dropLit_prefix, h1, h2, h3, h4, h5, hopt, dropLit_dot]
  simp [hms, hns, hsz, hfr, hls]

/-- The numeric-tail continuation can only start at a position whose first
two characters are `' '` and `'#'` (the start of ` # mtime `). -/
theorem tailAfterPath_none_head : ∀ s : List Char,
    ¬(s.head? = some ' ' ∧ (s.drop 1).head? = some '#') → tailAfterPath s = none := by
  intro s h
  cases s with
  | nil => rfl
  | cons a s' =>
    by_cases ha : a = ' '
    · subst ha
      cases s' with
      | nil => rfl
      | cons b s'' =>
        have hb : b ≠ '#' := by
          intro hb
          exact h ⟨rfl, by rw [hb]; rfl⟩
        have hdrop : dropLit mtime_lit (' ' :: b :: s'') = none := by
          show dropLit (' ' :: '#' :: " mtime ".data) (' ' :: b :: s'') = none
          simp [dropLit, Ne.symm hb]
        simp only [tailAfterPath, hdrop]
    · have hdrop : dropLit mtime_lit (a :: s') = none := by
        show dropLit (' ' :: '#' :: " mtime ".data) (a :: s') = none
        simp [dropLit, Ne.symm ha]
      simp only [tailAfterPath, hdrop]

/-- No strict suffix of a well-formed numeric tail ` # mtime ...` admits the
continuation, provided the text after the `#` is `#`-free (digit fields and
the literal separators contain no `#`). -/
theorem tail_suffix_none (X : List Char) (hX : '#' ∉ X) :
    ∀ t1 t2, mtime_lit ++ X = t1 ++ t2 → t1 ≠ [] → tailAfterPath t2 = none := by
  intro t1 t2 heq ht1
  cases t1 with
  | nil => exact absurd rfl ht1
  | cons c t1' =>
    have heq' : '#' :: ([' ', 'm', 't', 'i', 'm', 'e', ' '] ++ X) = t1' ++ t2 := by
      have := congrArg List.tail heq
      simpa [mtime_lit] using this
    cases t1' with
    | nil =>
      apply tailAfterPath_none_head
      intro ⟨h1, _⟩
      simp only [List.nil_append] at heq'
      rw [← heq'] at h1
      simp at h1
    | cons c' t1'' =>
      have hsuf : t2 <:+ ([' ', 'm', 't', 'i', 'm', 'e', ' '] ++ X) := by
        refine ⟨t1'', ?_⟩
        have := congrArg List.tail heq'
        simpa using this.symm
      apply tailAfterPath_none_head
      intro ⟨h1, h2⟩
      have hmem : '#' ∈ t2 := by
        cases t2 with
        | nil => simp at h1
        | cons d t2' =>
          cases t2' with
          | nil => simp at h2
          | cons e t2'' =>
            simp only [List.drop_succ_cons, List.drop_zero, List.head?_cons,
              Option.some.injEq] at h2
            rw [← h2]
            exact List.mem_cons_of_mem _ (List.mem_cons_self _ _)
      have hin := hsuf.subset hmem
      rcases List.mem_append.mp hin with hin | hin
      · simp at hin
      · exact hX hin

/-- Backtracking failure of `dotStar`: if the continuation fails at every
suffix position of the input, the whole greedy search fails. -/
theorem dotStar_none (tm : List Char → Option TailCaps) :
    ∀ T acc, (∀ t1 t2, T = t1 ++ t2 → tm t2 = none) → dotStar tm acc T = none
  | [], acc, h => by
    simp only [dotStar, h [] [] rfl, Option.map_none']
  | c :: T', acc, h => by
    by_cases hc : c = '\n'
    · simp only [dotStar, if_pos hc, h [] (c :: T') rfl, Option.map_none']
    · have hrec := dotStar_none tm T' (c :: acc)
        (fun t1 t2 ht => h (c :: t1) t2 (by rw [ht]; rfl))
      simp only [dotStar, if_neg hc, hrec, h [] (c :: T') rfl, Option.map_none']

/-- Greedy success of `dotStar`: if the continuation succeeds at the start
of `T` and fails strictly inside `T`, the greedy search consumes exactly the
newline-free prefix `P` and captures it. -/
theorem dotStar_finds (tm : List Char → Option TailCaps) :
    ∀ (P : List Char) (T acc : List Char) (tc : TailCaps), (∀ c ∈ P, c ≠ '\n') →
      (∀ t1 t2, T = t1 ++ t2 → t1 ≠ [] → tm t2 = none) → tm T = some tc →
      dotStar tm acc (P ++ T) = some (acc.reverse ++ P, tc)
  | [], T, acc, tc, _, hT, htc => by
    cases T with
    | nil => simp [dotStar, htc]
    | cons c T' =>
      by_cases hc : c = '\n'
      · simp [dotStar, if_pos hc, htc]
      · have hnone : dotStar tm (c :: acc) T' = none :=
          dotStar_none tm T' (c :: acc)
            (fun t1 t2 ht => hT (c :: t1) t2 (by rw [ht]; rfl) (by simp))
        simp [dotStar, if_neg hc, hnone, htc]
  | c :: P', T, acc, tc, hP, hT, htc => by
    have hc : c ≠ '\n' := hP c (List.mem_cons_self c P')
    have ih := dotStar_finds tm P' T (c :: acc) tc
      (fun d hd => hP d (List.mem_cons_of_mem c hd)) hT htc
    rw [List.cons_append]
    simp only [dotStar, if_neg hc]
    rw [ih]
    simp

/-- Inversion of `dotStar`: a success splits the input at a position where
the continuation succeeds, and the capture extends the accumulator. -/
theorem dotStar_some (tm : List Char → Option TailCaps) :
    ∀ (rem acc p : List Char) (tc : TailCaps), dotStar tm acc rem = some (p, tc) →
      ∃ pre suf, rem = pre ++ suf ∧ tm suf = some tc ∧ p = acc.reverse ++ pre
  | [], acc, p, tc, h => by
    simp only [dotStar] at h
    rcases Option.map_eq_some'.mp h with ⟨tc', htc', heq⟩
    obtain ⟨hp, htc2⟩ := Prod.mk.injEq .. ▸ heq
    exact ⟨[], [], rfl, by rw [htc', htc2], by rw [← hp]; simp⟩
  | c :: rem', acc, p, tc, h => by
    by_cases hc : c = '\n'
    · simp only [dotStar, if_pos hc] at h
      rcases Option.map_eq_some'.mp h with ⟨tc', htc', heq⟩
      obtain ⟨hp, htc2⟩ := Prod.mk.injEq .. ▸ heq
      exact ⟨[], c :: rem', rfl, by rw [htc', htc2], by rw [← hp]; simp⟩
    · simp only [dotStar, if_neg hc] at h
      cases hrec : dotStar tm (c :: acc) rem' with
      | none =>
        rw [hrec] at h
        simp only at h
        rcases Option.map_eq_some'.mp h with ⟨tc', htc', heq⟩
        obtain ⟨hp, htc2⟩ := Prod.mk.injEq .. ▸ heq
        exact ⟨[], c :: rem', rfl, by rw [htc', htc2], by rw [← hp]; simp⟩
      | some val =>
        obtain ⟨p', tc'⟩ := val
        rw [hrec] at h
        simp only [Option.some.injEq, Prod.mk.injEq] at h
        obtain ⟨hp', htc'⟩ := h
        rw [hp', htc'] at hrec
        obtain ⟨pre, suf, hrem, htm, hp⟩ := dotStar_some tm rem' (c :: acc) p tc hrec
        refine ⟨c :: pre, suf, by rw [hrem]; rfl, htm, ?_⟩
        rw [hp]
        simp

theorem matchAt_core (digest : List Char) (hdl : digest.length = 64)
    (hdh : ∀ x ∈ digest, isHexLowerChar x = true)
    (c : Char) (hc : c ≠ '/') (p' : List Char) (hp : ∀ x ∈ p', x ≠ '\n')
    (X : List Char) (hX : '#' ∉ X) (tc : TailCaps)
    (htail : tailAfterPath (mtime_lit ++ X) = some tc) :
    matchAt (digest ++ ' ' :: (c :: p' ++ (mtime_lit ++ X)))
        = some ⟨digest, c :: p', tc⟩ ∧
    matchAt (digest ++ ' ' :: '/' :: (c :: p' ++ (mtime_lit ++ X)))
        = some ⟨digest, c :: p', tc⟩ := by
  have hdot : dotStar tailAfterPath [c] (p' ++ (mtime_lit ++ X))
      = some (c :: p', tc) := by
    have := dotStar_finds tailAfterPath p' (mtime_lit ++ X) [c] tc hp
      (tail_suffix_none X hX) htail
    simpa using this
  constructor
  · have h64 : takeCountHex 64 (digest ++ ' ' :: (c :: p' ++ (mtime_lit ++ X)))
        = some (digest, ' ' :: (c :: p' ++ (mtime_lit ++ X))) :=
      hdl ▸ takeCountHex_exact digest _ hdh
    simp only [List.cons_append] at h64
    simp only [List.cons_append, matchAt, h64, List.head?_cons, Option.some.injEq, hc,
      if_false, hdot, Option.map_some']
  · have h64 : takeCountHex 64 (digest ++ ' ' :: '/' :: (c :: p' ++ (mtime_lit ++ X)))
        = some (digest, ' ' :: '/' :: (c :: p' ++ (mtime_lit ++ X))) :=
      hdl ▸ takeCountHex_exact digest _ hdh
    simp only [List.cons_append] at h64
    simp only [List.cons_append, matchAt, h64, List.head?_cons, Option.some.injEq,
      if_true, List.tail_cons, hc, if_false, hdot, Option.map_some']

theorem findMatch_of_matchAt (s : List Char) (caps : LineCaps)
    (h : matchAt s = some caps) : findMatch s = some caps := by
  cases s with
  | nil => exact absurd h (by rw [show matchAt [] = none from rfl]; simp)
  | cons c s' => simp only [findMatch, h]

theorem parse_u64_some (ds : List Char) (h : nat_from_digits ds < 2 ^ 64) :
    parse_u64 ds = some (nat_from_digits ds) := by
  unfold parse_u64
  rw [if_pos h]

theorem no_hash_digits {ds : List Char} (h : ∀ c ∈ ds, isAsciiDigit c = true) :
    '#' ∉ ds := fun hm => absurd (h '#' hm) (by decide)

/-- Decoding a line assembled from a grammar-shaped decomposition: the
leftmost match is the intended one and every field converts, so `parse`
returns exactly the record built from the fields. -/
theorem parse_core (digest : List Char) (bs : List Nat)
    (path ms ns sz fr ls frfrac lsfrac sl : List Char)
    (hsl : sl = [] ∨ sl = ['/'])
    (hdl : digest.length = 64) (hdh : ∀ c ∈ digest, isHexLowerChar c = true)
    (hpairs : hexPairs digest = some bs)
    (hpath : path ≠ []) (hphead : path.head? ≠ some '/') (hpn : '\n' ∉ path)
    (hms : ms ≠ []) (hmsd : ∀ c ∈ ms, isAsciiDigit c = true)
    (hmsv : nat_from_digits ms < 2 ^ 64)
    (hns : ns ≠ []) (hnsd : ∀ c ∈ ns, isAsciiDigit c = true)
    (hnsv : nat_from_digits ns < 2 ^ 64)
    (hsz : sz ≠ []) (hszd : ∀ c ∈ sz, isAsciiDigit c = true)
    (hszv : nat_from_digits sz < 2 ^ 64)
    (hfr : fr ≠ []) (hfrd : ∀ c ∈ fr, isAsciiDigit c = true)
    (hfrv : nat_from_digits fr < 2 ^ 64)
    (hls : ls ≠ []) (hlsd : ∀ c ∈ ls, isAsciiDigit c = true)
    (hlsv : nat_from_digits ls < 2 ^ 64)
    (hfrac : frfrac = [] ∨ ∃ d, d ≠ [] ∧ (∀ c ∈ d, isAsciiDigit c = true) ∧ frfrac = '.' :: d)
    (hlsfrac : lsfrac = [] ∨ ∃ d, d ≠ [] ∧ (∀ c ∈ d, isAsciiDigit c = true) ∧ lsfrac = '.' :: d) :
    FileInfo.parse (digest ++ ' ' :: (sl ++ (path ++ (mtime_lit ++ (ms ++ '.' :: (ns
        ++ (size_lit ++ (sz ++ (fully_read_lit ++ (fr ++ (frfrac ++ (last_seen_lit
        ++ (ls ++ lsfrac)))))))))))))
      = .ok { rel_path := path
              sha256_digest := bs
              mtime := (nat_from_digits ms * 1000000000 % 2 ^ 64
                  + nat_from_digits ns * ns_scale ns.length % 2 ^ 64) % 2 ^ 64
              len := nat_from_digits sz
              fully_read := nat_from_digits fr * 1000000000
              last_seen := nat_from_digits ls * 1000000000 } := by
  obtain ⟨c, p', rfl⟩ : ∃ c p', path = c :: p' := by
    cases path with
    | nil => exact absurd rfl hpath
    | cons c p' => exact ⟨c, p', rfl⟩
  have hc : c ≠ '/' := fun h => hphead (by rw [h]; rfl)
  have hp : ∀ x ∈ p', x ≠ '\n' :=
    fun x hx h => hpn (h ▸ List.mem_cons_of_mem c hx)
  have hlsrest : ∀ x, lsfrac.head? = some x → isAsciiDigit x = false := by
    rcases hlsfrac with hlf | ⟨d, _, _, hlf⟩ <;> subst hlf
    · intro x hx
      simp at hx
    · intro x hx
      simp only [List.head?_cons, Option.some.injEq] at hx
      subst hx
      decide
  have htail := tailAfterPath_build ms ns sz fr ls frfrac lsfrac hms hmsd hns hnsd hsz hszd
    hfr hfrd hls hlsd hfrac hlsrest
  have hX : '#' ∉ (ms ++ '.' :: (ns ++ (size_lit ++ (sz ++ (fully_read_lit
      ++ (fr ++ (frfrac ++ (last_seen_lit ++ (ls ++ lsfrac))))))))) := by
    intro hm
    simp only [List.mem_append, List.mem_cons] at hm
    rcases hm with hm | hm | hm | hm | hm | hm | hm | hm | hm | hm | hm
    · exact no_hash_digits hmsd hm
    · exact absurd hm (by decide)
    · exact no_hash_digits hnsd hm
    · exact absurd hm (by decide)
    · exact no_hash_digits hszd hm
    · exact absurd hm (by decide)
    · exact no_hash_digits hfrd hm
    · rcases hfrac with hff | ⟨d, _, hdd, hff⟩ <;> subst hff
      · exact absurd hm (List.not_mem_nil _)
      · rcases List.mem_cons.mp hm with hm | hm
        · exact absurd hm (by decide)
        · exact no_hash_digits hdd hm
    · exact absurd hm (by decide)
    · exact no_hash_digits hlsd hm
    · rcases hlsfrac with hlf | ⟨d, _, hdd, hlf⟩ <;> subst hlf
      · exact absurd hm (List.not_mem_nil _)
      · rcases List.mem_cons.mp hm with hm | hm
        · exact absurd hm (by decide)
        · exact no_hash_digits hdd hm
  obtain ⟨hm1, hm2⟩ := matchAt_core digest hdl hdh c hc p' hp _ hX _ htail
  have hfind : findMatch (digest ++ ' ' :: (sl ++ ((c :: p') ++ (mtime_lit ++ (ms
      ++ '.' :: (ns ++ (size_lit ++ (sz ++ (fully_read_lit ++ (fr ++ (frfrac
      ++ (last_seen_lit ++ (ls ++ lsfrac)))))))))))))
      = some ⟨digest, c :: p', ⟨ms, ns, sz, fr, ls⟩⟩ := by
    rcases hsl with h | h <;> subst h
    · apply findMatch_of_matchAt
      simpa using hm1
    · apply findMatch_of_matchAt
      simpa using hm2
  simp only [FileInfo.parse, hfind, hpairs, parse_u64_some ms hmsv, parse_u64_some ns hnsv,
    parse_u64_some sz hszv, parse_u64_some fr hfrv, parse_u64_some ls hlsv]

theorem ns_scale_nine : ns_scale 9 = 1 := by norm_num [ns_scale]

theorem two_pow_64_eq : (2 : Nat) ^ 64 = 18446744073709551616 := by norm_num

/-- Decoding the encoded form of a representable record, with an optional
single leading slash inserted before the path, returns the record. -/
theorem parse_encoded (r : FileInfo) (h : Representable r) (sl : List Char)
    (hsl : sl = [] ∨ sl = ['/']) :
    FileInfo.parse (hexEncode r.sha256_digest ++ ' ' :: (sl ++ (r.rel_path ++ (mtime_lit
        ++ (nat_to_dec (r.mtime / 1000000000)
        ++ '.' :: (pad9 (nat_to_dec (r.mtime % 1000000000)) ++ (size_lit
        ++ (nat_to_dec r.len ++ (fully_read_lit ++ (nat_to_dec (r.fully_read / 1000000000)
        ++ ([] ++ (last_seen_lit ++ (nat_to_dec (r.last_seen / 1000000000) ++ [])))))))))))))
      = .ok r := by
  obtain ⟨rp, rd, rm, rlen, rls, rfr⟩ := r
  obtain ⟨hdl32, hdb, hpne, hphead, hpn, hmt, hlenb, hfrm, hfrdb, hlsm, hlsdb⟩ := h
  dsimp only at hdl32 hdb hpne hphead hpn hmt hlenb hfrm hfrdb hlsm hlsdb ⊢
  obtain ⟨hms1, hms2, hms3⟩ := nat_to_dec_spec (rm / 1000000000)
  obtain ⟨hnsa1, hnsa2, hnsa3⟩ := nat_to_dec_spec (rm % 1000000000)
  have hnslen : (nat_to_dec (rm % 1000000000)).length ≤ 9 :=
    nat_to_dec_len _ 9 (by have := Nat.mod_lt rm (show 0 < 1000000000 by norm_num); omega)
      (by norm_num)
  obtain ⟨hns1, hns2, hns3⟩ := pad9_spec _ hnslen hnsa2
  obtain ⟨hsz1, hsz2, hsz3⟩ := nat_to_dec_spec rlen
  obtain ⟨hfr1, hfr2, hfr3⟩ := nat_to_dec_spec (rfr / 1000000000)
  obtain ⟨hls1, hls2, hls3⟩ := nat_to_dec_spec (rls / 1000000000)
  obtain ⟨hhex1, hhex2, hhex3⟩ := hexEncode_spec rd hdb
  rw [parse_core (hexEncode rd) rd rp _ _ _ _ _ [] [] sl hsl
    (by rw [hhex2, hdl32]) hhex1 hhex3 hpne hphead hpn
    hms1 hms2 (by rw [hms3]; exact lt_of_le_of_lt (Nat.div_le_self _ _) hmt)
    (by intro hnil; rw [hnil] at hns1; simp at hns1) hns2
    (by rw [hns3, hnsa3, two_pow_64_eq]; omega)
    hsz1 hsz2 (by rw [hsz3]; exact hlenb)
    hfr1 hfr2 (by rw [hfr3]; exact hfrdb)
    hls1 hls2 (by rw [hls3]; exact hlsdb)
    (Or.inl rfl) (Or.inl rfl)]
  simp only [Except.ok.injEq, FileInfo.mk.injEq]
  refine ⟨trivial, trivial, ?_, hsz3, ?_, ?_⟩
  · rw [hms3, hns3, hnsa3, hns1, ns_scale_nine, two_pow_64_eq]
    rw [two_pow_64_eq] at hmt
    have e1 : rm / 1000000000 * 1000000000 % 18446744073709551616
        = rm / 1000000000 * 1000000000 := by
      refine Nat.mod_eq_of_lt ?_
      have := Nat.div_mul_le_self rm 1000000000
      omega
    have e2 : rm % 1000000000 * 1 % 18446744073709551616 = rm % 1000000000 := by
      rw [Nat.mul_one]
      refine Nat.mod_eq_of_lt ?_
      have := Nat.mod_lt rm (show 0 < 1000000000 by norm_num)
      omega
    rw [e1, e2]
    have e3 := Nat.div_add_mod rm 1000000000
    have := Nat.div_mul_le_self rm 1000000000
    omega
  · rw [hls3]
    omega
  · rw [hfr3]
    omega

/-- C3: decoding an encoded representable record returns the record:
`parse (write_line r) = ok r`, non-ASCII path characters and
nanosecond-precision mtimes included; paths containing the line's control
character (a newline) are excluded, as is a leading slash, per the data
model (§3: relative paths carry no leading slash). -/
theorem C3_round_trip (r : FileInfo) (h : Representable r) :
    FileInfo.parse (FileInfo.write_line r) = .ok r := by
  have hgen := parse_encoded r h [] (Or.inl rfl)
  rw [show FileInfo.write_line r = hexEncode r.sha256_digest
      ++ ' ' :: ([] ++ (r.rel_path ++ (mtime_lit ++ (nat_to_dec (r.mtime / 1000000000)
      ++ '.' :: (pad9 (nat_to_dec (r.mtime % 1000000000)) ++ (size_lit
      ++ (nat_to_dec r.len ++ (fully_read_lit ++ (nat_to_dec (r.fully_read / 1000000000)
      ++ ([] ++ (last_seen_lit ++ (nat_to_dec (r.last_seen / 1000000000) ++ []))))))))))))
    from by simp [FileInfo.write_line, write_line_tail]]
  exact hgen

theorem C3_round_trip_witness :
    Representable sampleFileInfo ∧
    FileInfo.parse (FileInfo.write_line sampleFileInfo) = .ok sampleFileInfo :=
  ⟨by unfold Representable; decide,
    C3_round_trip sampleFileInfo (by unfold Representable; decide)⟩

theorem matchAt_path (s : List Char) (caps : LineCaps) (h : matchAt s = some caps) :
    ∃ c p', caps.path = c :: p' ∧ c ≠ '/' := by
  unfold matchAt at h
  cases htk : takeCountHex 64 s with
  | none => rw [htk] at h; cases h
  | some v =>
    obtain ⟨hex, s1⟩ := v
    rw [htk] at h
    dsimp only at h
    split at h
    · rename_i s2
      rcases hcase : (if s2.head? = some '/' then s2.tail else s2) with _ | ⟨c, s4⟩
      · rw [hcase] at h
        cases h
      · rw [hcase] at h
        dsimp only at h
        by_cases hc : c = '/'
        · rw [if_pos hc] at h
          cases h
        · rw [if_neg hc] at h
          rcases Option.map_eq_some'.mp h with ⟨⟨p, tc⟩, hds, hcaps⟩
          obtain ⟨pre, suf, _, _, hp⟩ := dotStar_some tailAfterPath s4 [c] p tc hds
          refine ⟨c, pre, ?_, hc⟩
          rw [← hcaps]
          dsimp only
          rw [hp]
          rfl
    · cases h

theorem findMatch_path : ∀ (l : List Char) (caps : LineCaps),
    findMatch l = some caps → ∃ c p', caps.path = c :: p' ∧ c ≠ '/'
  | [], caps => by
    intro h
    exact absurd h (by simp [findMatch])
  | c :: l', caps => by
    intro h
    simp only [findMatch] at h
    cases hm : matchAt (c :: l') with
    | some caps' =>
      rw [hm] at h
      obtain rfl : caps' = caps := by simpa using h
      exact matchAt_path _ _ hm
    | none =>
      rw [hm] at h
      exact findMatch_path l' caps h

theorem parse_ok_rel_path (l : List Char) (r : FileInfo) (h : FileInfo.parse l = .ok r) :
    ∃ caps, findMatch l = some caps ∧ r.rel_path = caps.path := by
  unfold FileInfo.parse at h
  cases hf : findMatch l with
  | none => rw [hf] at h; cases h
  | some caps =>
    rw [hf] at h
    dsimp only at h
    refine ⟨caps, rfl, ?_⟩
    split at h
    · cases h
    · split at h
      · cases h
      · split at h
        · cases h
        · split at h
          · cases h
          · split at h
            · cases h
            · split at h
              · cases h
              · rw [← Except.ok.inj h]

theorem parse_ok_no_slash (l : List Char) (r : FileInfo) (h : FileInfo.parse l = .ok r) :
    r.rel_path.head? ≠ some '/' := by
  obtain ⟨caps, hf, hpath⟩ := parse_ok_rel_path l r h
  obtain ⟨c, p', hshape, hc⟩ := findMatch_path l caps hf
  rw [hpath, hshape]
  simp only [List.head?_cons, ne_eq, Option.some.injEq]
  exact hc

set_option maxRecDepth 100000 in
/-- C10: `parse` tolerates exactly one leading slash on the path field and
strips it, so the slashed line decodes to the same record as the canonical
line; every successfully decoded record's path therefore starts without a
slash, and decoding is not injective (witnessed by the sample record's
slashed and unslashed lines). -/
theorem C10_leading_slash_tolerance (r : FileInfo) (h : Representable r) :
    FileInfo.parse (slashed_line r) = .ok r ∧
    (∀ l r', FileInfo.parse l = .ok r' → r'.rel_path.head? ≠ some '/') ∧
    slashed_line sampleFileInfo ≠ FileInfo.write_line sampleFileInfo ∧
    FileInfo.parse (slashed_line sampleFileInfo)
      = FileInfo.parse (FileInfo.write_line sampleFileInfo) := by
  have hslash : ∀ r0, Representable r0 → FileInfo.parse (slashed_line r0) = .ok r0 := by
    intro r0 h0
    have hgen := parse_encoded r0 h0 ['/'] (Or.inr rfl)
    rw [show slashed_line r0 = hexEncode r0.sha256_digest
      ++ ' ' :: (['/'] ++ (r0.rel_path ++ (mtime_lit ++ (nat_to_dec (r0.mtime / 1000000000)
      ++ '.' :: (pad9 (nat_to_dec (r0.mtime % 1000000000)) ++ (size_lit
      ++ (nat_to_dec r0.len ++ (fully_read_lit ++ (nat_to_dec (r0.fully_read / 1000000000)
      ++ ([] ++ (last_seen_lit ++ (nat_to_dec (r0.last_seen / 1000000000) ++ []))))))))))))
      from by simp [slashed_line, write_line_tail]]
    exact hgen
  have hwl : ∀ r0, Representable r0 → FileInfo.parse (FileInfo.write_line r0) = .ok r0 := by
    intro r0 h0
    have hgen := parse_encoded r0 h0 [] (Or.inl rfl)
    rw [show FileInfo.write_line r0 = hexEncode r0.sha256_digest
      ++ ' ' :: ([] ++ (r0.rel_path ++ (mtime_lit ++ (nat_to_dec (r0.mtime / 1000000000)
      ++ '.' :: (pad9 (nat_to_dec (r0.mtime % 1000000000)) ++ (size_lit
      ++ (nat_to_dec r0.len ++ (fully_read_lit ++ (nat_to_dec (r0.fully_read / 1000000000)
      ++ ([] ++ (last_seen_lit ++ (nat_to_dec (r0.last_seen / 1000000000) ++ []))))))))))))
      from by simp [FileInfo.write_line, write_line_tail]]
    exact hgen
  refine ⟨hslash r h, fun l r' hl => parse_ok_no_slash l r' hl, by decide, ?_⟩
  rw [hslash sampleFileInfo (by unfold Representable; decide),
    hwl sampleFileInfo (by unfold Representable; decide)]

theorem C10_witness :
    FileInfo.parse (slashed_line sampleFileInfo) = .ok sampleFileInfo ∧
    (∀ l r', FileInfo.parse l = .ok r' → r'.rel_path.head? ≠ some '/') ∧
    slashed_line sampleFileInfo ≠ FileInfo.write_line sampleFileInfo ∧
    FileInfo.parse (slashed_line sampleFileInfo)
      = FileInfo.parse (FileInfo.write_line sampleFileInfo) :=
  C10_leading_slash_tolerance sampleFileInfo (by unfold Representable; decide)

theorem getLast_map_opt {α β : Type} (f : α → β) :
    ∀ l : List α, (l.map f).getLast? = (l.getLast?).map f
  | [] => rfl
  | [_] => rfl
  | _ :: b :: t => by
      rw [List.map_cons, List.map_cons, List.getLast?_cons_cons, List.getLast?_cons_cons,
        ← List.map_cons]
      exact getLast_map_opt f (b :: t)

theorem read_state_eq (dir_name : List Char) (children : List (List Char × List (List Char))) :
    read_state dir_name children =
      match ((((dir_name, none) :: (children.insertionSort fun a b => a.1 ≤ b.1).map
          (fun c => (c.1, some c.2))).filter fun e => ends_with_state e.1).getLast?) with
      | none => .ok []
      | some (_, none) => .error .read_dir_failed
      | some (_, some ls) => (parse_lines ls).mapError .parse_failed := rfl

theorem getLast_sorted_max :
    ∀ (l : List (List Char × List (List Char))) (x : List Char × List (List Char)),
      l.Sorted (fun a b => a.1 ≤ b.1) → x ∈ l → (∀ y ∈ l, y.1 ≤ x.1) →
      (l.map Prod.fst).Nodup → l.getLast? = some x
  | [], x, _, hx, _, _ => absurd hx (List.not_mem_nil x)
  | [a], x, _, hx, _, _ => by
      rcases List.mem_singleton.mp hx with rfl
      rfl
  | a :: b :: t, x, hs, hx, hb, hn => by
      have hs' : (b :: t).Sorted (fun a b => a.1 ≤ b.1) := hs.of_cons
      rw [List.map_cons] at hn
      have hnc := List.nodup_cons.mp hn
      have hx' : x ∈ b :: t := by
        rcases List.mem_cons.mp hx with rfl | h
        · have hab : x.1 ≤ b.1 := (List.sorted_cons.mp hs).1 b (List.mem_cons_self b t)
          have hba : b.1 ≤ x.1 := hb b (List.mem_cons.mpr (Or.inr (List.mem_cons_self b t)))
          have heq : x.1 = b.1 := le_antisymm hab hba
          exact absurd (by rw [heq]; exact List.mem_map.mpr ⟨b, List.mem_cons_self b t, rfl⟩)
            hnc.1
        · exact h
      have hb' : ∀ y ∈ b :: t, y.1 ≤ x.1 := fun y hy => hb y (List.mem_cons.mpr (Or.inr hy))
      rw [List.getLast?_cons_cons]
      exact getLast_sorted_max (b :: t) x hs' hx' hb' hnc.2

theorem parse_lines_error_iff (lines : List (List Char)) :
    (∃ e, parse_lines lines = .error e) ↔
      ∃ l ∈ lines, ∃ e, FileInfo.parse l = .error e := by
  induction lines with
  | nil =>
    constructor
    · rintro ⟨e, he⟩
      simp [parse_lines] at he
    · rintro ⟨l, hl, -⟩
      exact absurd hl (List.not_mem_nil l)
  | cons l rest ih =>
    cases hp : FileInfo.parse l with
    | error e =>
      constructor
      · intro _
        exact ⟨l, List.mem_cons_self l rest, e, hp⟩
      · intro _
        exact ⟨e, by simp [parse_lines, hp]⟩
    | ok fi =>
      constructor
      · rintro ⟨e, he⟩
        simp only [parse_lines, hp] at he
        cases hr : parse_lines rest with
        | error e2 =>
          obtain ⟨l2, hl2, he2⟩ := ih.mp ⟨e2, hr⟩
          exact ⟨l2, List.mem_cons.mpr (Or.inr hl2), he2⟩
        | ok acc =>
          rw [hr] at he
          simp at he
      · rintro ⟨l2, hl2, e2, he2⟩
        rcases List.mem_cons.mp hl2 with rfl | hmem
        · rw [hp] at he2
          simp at he2
        · obtain ⟨e3, h3⟩ := ih.mpr ⟨l2, hmem, e2, he2⟩
          exact ⟨e3, by simp [parse_lines, hp, h3]⟩

/-- C9 counterexample: a state directory whose own name ends in ".state"
and which has no matching child does not return the empty mapping as the
claim promises — `WalkDir` yields the directory itself, the suffix filter
keeps it, and reading it as a file fails. -/
theorem C9_counterexample :
    read_state "d.state".data [] = .error .read_dir_failed := by decide

/-- C9 (amended): provided the state directory's own name does not end in
".state" and its children have distinct names, snapshot load (i) returns
the empty mapping when no child name ends in ".state"; (ii) otherwise
returns exactly the decoded contents of the lexically-greatest such child;
and (iii) decoding fails iff some line of the selected file fails to
decode. -/
theorem C9_amended_snapshot_load (dir_name name : List Char) (ls : List (List Char))
    (children : List (List Char × List (List Char)))
    (hdir : ends_with_state dir_name = false)
    (hnodup : (children.map Prod.fst).Nodup) :
    ((∀ c ∈ children, ends_with_state c.1 = false) →
      read_state dir_name children = .ok []) ∧
    ((name, ls) ∈ children → ends_with_state name = true →
      (∀ c ∈ children, ends_with_state c.1 = true → c.1 ≤ name) →
      read_state dir_name children = (parse_lines ls).mapError .parse_failed) ∧
    (∀ lines, (∃ e, parse_lines lines = .error e) ↔
      ∃ l ∈ lines, ∃ e, FileInfo.parse l = .error e) := by
  haveI htot : IsTotal (List Char × List (List Char)) (fun a b => a.1 ≤ b.1) :=
    ⟨fun a b => le_total a.1 b.1⟩
  haveI htrans : IsTrans (List Char × List (List Char)) (fun a b => a.1 ≤ b.1) :=
    ⟨fun _ _ _ hab hbc => le_trans hab hbc⟩
  have hperm := List.perm_insertionSort (fun a b : List Char × List (List Char) => a.1 ≤ b.1)
    children
  refine ⟨?_, ?_, parse_lines_error_iff⟩
  · intro hall
    rw [read_state_eq]
    have hfil : (((dir_name, (none : Option (List (List Char)))) ::
        (children.insertionSort fun a b => a.1 ≤ b.1).map (fun c => (c.1, some c.2))).filter
          fun e => ends_with_state e.1) = [] := by
      rw [List.filter_eq_nil]
      intro a ha
      rcases List.mem_cons.mp ha with rfl | h
      · simp [hdir]
      · obtain ⟨c, hc, hac⟩ := List.mem_map.mp h
        have hc' : c ∈ children := hperm.mem_iff.mp hc
        rw [← hac]
        simp [hall c hc']
    rw [hfil]
    rfl
  · intro hmem hname hmax
    rw [read_state_eq]
    have hfil : (((dir_name, (none : Option (List (List Char)))) ::
        (children.insertionSort fun a b => a.1 ≤ b.1).map (fun c => (c.1, some c.2))).filter
          fun e => ends_with_state e.1) =
        ((children.insertionSort fun a b => a.1 ≤ b.1).filter
          fun c => ends_with_state c.1).map (fun c => (c.1, some c.2)) := by
      rw [List.filter_cons_of_neg (by simp [hdir]), List.filter_map]
      rfl
    have hsorted : ((children.insertionSort fun a b => a.1 ≤ b.1).filter
        fun c => ends_with_state c.1).Sorted (fun a b => a.1 ≤ b.1) :=
      (List.sorted_insertionSort _ children).sublist (List.filter_sublist _)
    have hmem' : (name, ls) ∈ (children.insertionSort fun a b => a.1 ≤ b.1).filter
        fun c => ends_with_state c.1 :=
      List.mem_filter.mpr ⟨hperm.mem_iff.mpr hmem, hname⟩
    have hbound : ∀ y ∈ (children.insertionSort fun a b => a.1 ≤ b.1).filter
        fun c => ends_with_state c.1, y.1 ≤ (name, ls).1 := by
      intro y hy
      obtain ⟨hy1, hy2⟩ := List.mem_filter.mp hy
      exact hmax y (hperm.mem_iff.mp hy1) hy2
    have hnodup' : (((children.insertionSort fun a b => a.1 ≤ b.1).filter
        fun c => ends_with_state c.1).map Prod.fst).Nodup :=
      ((hperm.map Prod.fst).nodup_iff.mpr hnodup).sublist
        (List.Sublist.map Prod.fst (List.filter_sublist _))
    rw [hfil, getLast_map_opt, getLast_sorted_max _ (name, ls) hsorted hmem' hbound hnodup']
    rfl

/-- Witness for C9: a well-named state directory with one matching child
holding an empty file loads the empty mapping. -/
theorem C9_amended_snapshot_load_witness :
    read_state "d".data [("20220101 000000.state".data, [])] = .ok [] :=
  (C9_amended_snapshot_load "d".data "20220101 000000.state".data []
    [("20220101 000000.state".data, [])] (by decide) (by decide)).2.1
    (List.mem_singleton.mpr rfl) (by decide) (by decide)
